import Mathlib

/-!
# Verification of the Monitor_fish order-flow analysis engine

Shallow embedding of the core of the repository:

* `OrderTracker` (src/monitor/order-tracker.ts, the impact + tolerance
  variant, which the spec designates as authoritative): the per
  (token, price, side) delta/threshold state machine
  (`processOrderLevel`), the aging scan (`checkOrderAges`),
  `removeOrder` and `cleanup`.
* `PolymarketWebSocketParser` (src/parsers/polymarket-websocket.ts):
  order-book reconstruction (`handlePriceChange`, `handleAggOrderbook`)
  and `updateSubscriptions`.
* `AlertManager` (alert-manager source): `handleAlert` deduplication by
  `getAlertKey`.

JavaScript numbers are modelled as `ℚ`; `Date` values as `ℚ`
milliseconds since the epoch.  JavaScript `Map`s are modelled as
association lists with `Map.set` / `Map.get` / `Map.delete` semantics
(overwrite in place, first match, insertion order preserved).  The
composite string keys built by `generateLevelId`
(`` `${tokenId}_${price.toFixed(2)}_${side}` ``) and `getAlertKey`
(`` `${tokenId}_${price.toFixed(2)}` ``) are modelled as tuples of their
components, with `price.toFixed(2)` modelled by `fix2` (round half up to
an integer number of cents, which is `toFixed(2)` for the nonnegative
prices of this domain, read exactly).
-/

namespace MonitorFish

/-- Order side, the `'BUY' | 'SELL'` union type of the source. -/
inductive Side where
  | BUY : Side
  | SELL : Side
deriving DecidableEq, Repr

/-- Model of JavaScript `price.toFixed(2)` for a nonnegative price: the
number of cents, rounded half up. -/
def fix2 (q : ℚ) : ℤ := ⌊q * 100 + 1 / 2⌋

/-! ## Association lists modelling JavaScript `Map` -/

section AssocList

variable {κ α : Type} [DecidableEq κ]

/-- `Map.get`: first entry with the given key. -/
def aget : List (κ × α) → κ → Option α
  | [], _ => none
  | (k', v) :: rest, k => if k' = k then some v else aget rest k

/-- `Map.set`: overwrite the entry in place if the key is present,
otherwise append (insertion order, as a JavaScript `Map`). -/
def aset : List (κ × α) → κ → α → List (κ × α)
  | [], k, v => [(k, v)]
  | (k', v') :: rest, k, v =>
    if k' = k then (k, v) :: rest else (k', v') :: aset rest k v

/-- `Map.delete`: remove the first entry with the given key. -/
def adel : List (κ × α) → κ → List (κ × α)
  | [], _ => []
  | (k', v') :: rest, k => if k' = k then rest else (k', v') :: adel rest k

end AssocList

/-! ## OrderTracker (src/monitor/order-tracker.ts) -/

/-- `MonitorConfig` (the fields the tracker reads). -/
structure MonitorConfig where
  minSize : ℚ
  minPrice : ℚ
  maxPrice : ℚ
  alertAgeSeconds : ℚ
  deltaTolerance : ℚ
  minImpactPercent : ℚ
deriving DecidableEq, Repr

/-- The `{ slug, outcome }` value of the token map. -/
structure MatchInfo where
  slug : String
  outcome : String
deriving DecidableEq, Repr

/-- The components of the string key produced by `generateLevelId`:
`` `${tokenId}_${price.toFixed(2)}_${side}` ``. -/
structure LevelKey where
  tokenId : String
  price100 : ℤ
  side : Side
deriving DecidableEq, Repr

/-- `generateLevelId(tokenId, price, side)`. -/
def generateLevelId (tokenId : String) (price : ℚ) (side : Side) : LevelKey :=
  ⟨tokenId, fix2 price, side⟩

/-- `PriceLevel` record of the tracker. -/
structure PriceLevel where
  tokenId : String
  price : ℚ
  side : Side
  previousSize : ℚ
  baselineSize : ℚ
  trackedDelta : ℚ
  deltaFirstSeen : Option ℚ
  alerted : Bool
deriving DecidableEq, Repr

/-- `OrderAlert` as constructed in `checkOrderAges`. -/
structure OrderAlert where
  timestamp : ℚ
  matchSlug : String
  market : String
  tokenId : String
  orderId : LevelKey
  price : ℚ
  size : ℚ
  side : Side
  ageSeconds : ℤ
deriving DecidableEq, Repr

/-- The mutable state of an `OrderTracker` instance. -/
structure OrderTracker where
  priceLevels : List (LevelKey × PriceLevel)
  config : MonitorConfig
  tokenMap : List (String × MatchInfo)
deriving DecidableEq, Repr

/-- `OrderTracker.processOrderLevel(tokenId, price, newSize, side)`,
with `now` (the `new Date()` taken inside the method) passed
explicitly. -/
def processOrderLevel (t : OrderTracker) (tokenId : String) (price : ℚ)
    (newSize : ℚ) (side : Side) (now : ℚ) : OrderTracker :=
  -- price range filter
  if price < t.config.minPrice ∨ price > t.config.maxPrice then t
  else
    match aget t.tokenMap tokenId with
    | none => t  -- token not in tracked matches
    | some _ =>
      let levelId := generateLevelId tokenId price side
      match aget t.priceLevels levelId with
      | none =>
        -- first observation: record as baseline, no tracking yet
        let level : PriceLevel :=
          { tokenId := tokenId, price := price, side := side
            previousSize := newSize, baselineSize := newSize
            trackedDelta := 0, deltaFirstSeen := none, alerted := false }
        { t with priceLevels := aset t.priceLevels levelId level }
      | some level =>
        let delta := newSize - level.previousSize
        let level' :=
          if level.trackedDelta > 0 then
            let currentDeltaFromBaseline := newSize - level.baselineSize
            let toleranceThreshold :=
              level.trackedDelta * (1 - t.config.deltaTolerance)
            if currentDeltaFromBaseline ≥ toleranceThreshold then
              if currentDeltaFromBaseline > level.trackedDelta then
                { level with trackedDelta := currentDeltaFromBaseline }
              else level
            else
              { level with trackedDelta := 0, deltaFirstSeen := none
                           alerted := false, baselineSize := newSize }
          else if delta ≥ t.config.minSize then
            let impact :=
              if level.previousSize > 0 then delta / level.previousSize else 1
            if impact ≥ t.config.minImpactPercent then
              { level with baselineSize := level.previousSize
                           trackedDelta := delta, deltaFirstSeen := some now
                           alerted := false }
            else level
          else level
        let level'' := { level' with previousSize := newSize }
        { t with priceLevels := aset t.priceLevels levelId level'' }

/-- One iteration of the `checkOrderAges` loop: the (possibly mutated)
level together with the alerts it emits. -/
def checkOneLevel (cfg : MonitorConfig) (tokenMap : List (String × MatchInfo))
    (now : ℚ) (kv : LevelKey × PriceLevel) :
    (LevelKey × PriceLevel) × List OrderAlert :=
  -- `ageMs` is `now - deltaFirstSeen` and `ageSeconds` is
  -- `Math.floor(ageMs / 1000)`, inlined below.
  if kv.2.trackedDelta = 0 ∨ kv.2.alerted then (kv, [])
  else
    match kv.2.deltaFirstSeen with
    | none => (kv, [])
    | some firstSeen =>
      if now - firstSeen ≥ cfg.alertAgeSeconds * 1000 then
        match aget tokenMap kv.2.tokenId with
        | none => (kv, [])
        | some matchInfo =>
          ((kv.1, { kv.2 with alerted := true }),
           [{ timestamp := now, matchSlug := matchInfo.slug
              market := matchInfo.outcome, tokenId := kv.2.tokenId
              orderId := kv.1, price := kv.2.price
              size := kv.2.trackedDelta, side := kv.2.side
              ageSeconds := ⌊(now - firstSeen) / 1000⌋ }])
      else (kv, [])

/-- `OrderTracker.checkOrderAges()`: scan every level in insertion
order, emitting alerts and marking alerted levels. -/
def checkOrderAges (t : OrderTracker) (now : ℚ) :
    OrderTracker × List OrderAlert :=
  let results := t.priceLevels.map (checkOneLevel t.config t.tokenMap now)
  ({ t with priceLevels := results.map Prod.fst },
   (results.map Prod.snd).flatten)

/-- `OrderTracker.updateTokenMap(tokenMap)`. -/
def updateTokenMap (t : OrderTracker) (tm : List (String × MatchInfo)) :
    OrderTracker :=
  { t with tokenMap := tm }

/-- `OrderTracker.removeOrder(tokenId, price, side)`. -/
def removeOrder (t : OrderTracker) (tokenId : String) (price : ℚ)
    (side : Side) : OrderTracker :=
  let levelId := generateLevelId tokenId price side
  match aget t.priceLevels levelId with
  | none => t
  | some level =>
    let cleared : PriceLevel :=
      { level with previousSize := 0, baselineSize := 0, trackedDelta := 0
                   deltaFirstSeen := none, alerted := false }
    { t with priceLevels := aset t.priceLevels levelId cleared }

/-- `OrderTracker.cleanup(activeTokenIds)`: delete every level whose
token is not in the active set. -/
def cleanup (t : OrderTracker) (activeTokenIds : List String) : OrderTracker :=
  { t with priceLevels :=
      t.priceLevels.filter (fun kv => activeTokenIds.contains kv.2.tokenId) }

/-! ## Association-list lemmas -/

section AssocLemmas

variable {κ α : Type} [DecidableEq κ]

theorem aget_aset_self (m : List (κ × α)) (k : κ) (v : α) :
    aget (aset m k v) k = some v := by
  induction m with
  | nil => simp [aget, aset]
  | cons hd tl ih =>
    by_cases h : hd.1 = k
    · simp [aget, aset, h]
    · simpa [aget, aset, h] using ih

theorem aget_aset_ne (m : List (κ × α)) (k k' : κ) (v : α) (h : k' ≠ k) :
    aget (aset m k v) k' = aget m k' := by
  have h' : k ≠ k' := h.symm
  induction m with
  | nil => simp [aget, aset, h, h']
  | cons hd tl ih =>
    by_cases hhd : hd.1 = k
    · subst hhd
      simp [aget, aset, h, h']
    · by_cases hhd' : hd.1 = k'
      · simp [aget, aset, hhd, hhd', h, h']
      · simpa [aget, aset, hhd, hhd', h, h'] using ih

end AssocLemmas

/-- A level whose `trackedDelta` is `0` emits no alert in the
`checkOrderAges` scan (the `continue` guard). -/
theorem checkOneLevel_no_alert_of_not_tracking (cfg : MonitorConfig)
    (tm : List (String × MatchInfo)) (now : ℚ) (k : LevelKey)
    (level : PriceLevel) (h : level.trackedDelta = 0) :
    (checkOneLevel cfg tm now (k, level)).2 = [] := by
  simp [checkOneLevel, h]

/-! ### Lemmas about the `checkOrderAges` scan -/

theorem checkOneLevel_key (cfg : MonitorConfig)
    (tm : List (String × MatchInfo)) (now : ℚ) (kv : LevelKey × PriceLevel) :
    (checkOneLevel cfg tm now kv).1.1 = kv.1 := by
  unfold checkOneLevel
  split
  · rfl
  · split
    · rfl
    · split
      · split
        · rfl
        · rfl
      · rfl

theorem checkOneLevel_orderId (cfg : MonitorConfig)
    (tm : List (String × MatchInfo)) (now : ℚ) (kv : LevelKey × PriceLevel)
    (a : OrderAlert) (ha : a ∈ (checkOneLevel cfg tm now kv).2) :
    a.orderId = kv.1 := by
  unfold checkOneLevel at ha
  split at ha
  · simp at ha
  · split at ha
    · simp at ha
    · split at ha
      · split at ha
        · simp at ha
        · simp at ha
          subst ha
          rfl
      · simp at ha

theorem checkOneLevel_eligible (cfg : MonitorConfig)
    (tm : List (String × MatchInfo)) (now : ℚ) (k : LevelKey)
    (level : PriceLevel) (firstSeen : ℚ) (mi : MatchInfo)
    (htr : ¬ level.trackedDelta = 0) (hal : level.alerted = false)
    (hseen : level.deltaFirstSeen = some firstSeen)
    (hage : now - firstSeen ≥ cfg.alertAgeSeconds * 1000)
    (hmap : aget tm level.tokenId = some mi) :
    checkOneLevel cfg tm now (k, level) =
      ((k, { level with alerted := true }),
       [{ timestamp := now, matchSlug := mi.slug, market := mi.outcome,
          tokenId := level.tokenId, orderId := k, price := level.price,
          size := level.trackedDelta, side := level.side,
          ageSeconds := ⌊(now - firstSeen) / 1000⌋ }]) := by
  simp [checkOneLevel, htr, hal, hseen, hage, hmap]

theorem checkOneLevel_skip_alerted (cfg : MonitorConfig)
    (tm : List (String × MatchInfo)) (now : ℚ) (kv : LevelKey × PriceLevel)
    (hal : kv.2.alerted = true) :
    checkOneLevel cfg tm now kv = (kv, []) := by
  simp [checkOneLevel, hal]

theorem checkOneLevel_skip_unmapped (cfg : MonitorConfig)
    (tm : List (String × MatchInfo)) (now : ℚ) (kv : LevelKey × PriceLevel)
    (hmap : aget tm kv.2.tokenId = none) :
    checkOneLevel cfg tm now kv = (kv, []) := by
  unfold checkOneLevel
  split
  · rfl
  · split
    · rfl
    · split
      · split
        · rfl
        · next heq => rw [hmap] at heq; exact absurd heq (by simp)
      · rfl

theorem aget_map_keypres {κ α β : Type} [DecidableEq κ]
    (g : κ × α → κ × β) (hg : ∀ kv, (g kv).1 = kv.1)
    (m : List (κ × α)) (k : κ) (v : α) (h : aget m k = some v) :
    aget (m.map g) k = some (g (k, v)).2 := by
  induction m with
  | nil => simp [aget] at h
  | cons hd tl ih =>
    by_cases hk : hd.1 = k
    · have hv : v = hd.2 := by
        simp [aget, hk] at h
        exact h.symm
      subst hv
      have hhd : hd = (k, hd.2) := by
        rw [← hk]
      rw [hhd]
      simp only [List.map_cons, aget]
      rw [if_pos (by rw [hg ⟨k, hd.2⟩])]
    · have h' : aget tl k = some v := by
        simpa [aget, hk] using h
      simp only [List.map_cons, aget]
      rw [if_neg (by rw [hg hd]; exact hk)]
      exact ih h'

theorem filter_checkOneLevel_self (cfg : MonitorConfig)
    (tm : List (String × MatchInfo)) (now : ℚ) (k : LevelKey)
    (level : PriceLevel) :
    (checkOneLevel cfg tm now (k, level)).2.filter (fun a => a.orderId = k) =
      (checkOneLevel cfg tm now (k, level)).2 := by
  apply List.filter_eq_self.mpr
  intro a ha
  simpa using checkOneLevel_orderId cfg tm now (k, level) a ha

theorem filter_checkOneLevel_ne (cfg : MonitorConfig)
    (tm : List (String × MatchInfo)) (now : ℚ) (kv : LevelKey × PriceLevel)
    (k : LevelKey) (hk : kv.1 ≠ k) :
    (checkOneLevel cfg tm now kv).2.filter (fun a => a.orderId = k) = [] := by
  apply List.filter_eq_nil_iff.mpr
  intro a ha
  have := checkOneLevel_orderId cfg tm now kv a ha
  simp [this, hk]

/-- The alerts of a `checkOrderAges` scan that carry a given level id are
exactly the alerts of that level's own `checkOneLevel` step, provided
level ids are unique (always true of a JavaScript `Map`). -/
theorem alerts_filter_flatten (cfg : MonitorConfig)
    (tm : List (String × MatchInfo)) (now : ℚ)
    (m : List (LevelKey × PriceLevel)) (k : LevelKey) (level : PriceLevel)
    (hnodup : (m.map Prod.fst).Nodup) (h : aget m k = some level) :
    (((m.map (checkOneLevel cfg tm now)).map Prod.snd).flatten.filter
        (fun a => a.orderId = k)) =
      (checkOneLevel cfg tm now (k, level)).2 := by
  induction m with
  | nil => simp [aget] at h
  | cons hd tl ih =>
    simp only [List.map_cons, List.flatten_cons, List.filter_append]
    by_cases hk : hd.1 = k
    · have hv : level = hd.2 := by
        simp [aget, hk] at h
        exact h.symm
      subst hv
      have hhd : hd = (k, hd.2) := by rw [← hk]
      have htl : ∀ kv ∈ tl, kv.1 ≠ k := by
        intro kv hkv hkk
        simp only [List.map_cons, List.nodup_cons] at hnodup
        exact hnodup.1 (hk ▸ hkk ▸ List.mem_map_of_mem Prod.fst hkv)
      have htl0 :
          ((tl.map (checkOneLevel cfg tm now)).map Prod.snd).flatten.filter
            (fun a => a.orderId = k) = [] := by
        clear ih h hnodup
        induction tl with
        | nil => simp
        | cons hd' tl' ih' =>
          simp only [List.map_cons, List.flatten_cons, List.filter_append]
          rw [filter_checkOneLevel_ne cfg tm now hd' k
              (htl hd' (List.mem_cons_self hd' tl')),
            ih' (fun kv hkv => htl kv (List.mem_cons_of_mem hd' hkv))]
          rfl
      rw [htl0, hhd, filter_checkOneLevel_self cfg tm now k hd.2]
      simp
    · have h' : aget tl k = some level := by
        simpa [aget, hk] using h
      simp only [List.map_cons, List.nodup_cons] at hnodup
      rw [filter_checkOneLevel_ne cfg tm now hd k hk, ih hnodup.2 h']
      rfl

theorem aget_checkOrderAges (t : OrderTracker) (now : ℚ) (k : LevelKey)
    (level : PriceLevel) (h : aget t.priceLevels k = some level) :
    aget (checkOrderAges t now).1.priceLevels k =
      some ((checkOneLevel t.config t.tokenMap now (k, level)).1).2 := by
  simp only [checkOrderAges, List.map_map]
  exact aget_map_keypres _
    (fun kv => checkOneLevel_key t.config t.tokenMap now kv) _ k level h

theorem alerts_checkOrderAges (t : OrderTracker) (now : ℚ) (k : LevelKey)
    (level : PriceLevel) (hnodup : (t.priceLevels.map Prod.fst).Nodup)
    (h : aget t.priceLevels k = some level) :
    (checkOrderAges t now).2.filter (fun a => a.orderId = k) =
      (checkOneLevel t.config t.tokenMap now (k, level)).2 := by
  simp only [checkOrderAges]
  exact alerts_filter_flatten t.config t.tokenMap now t.priceLevels k level
    hnodup h

/-- C4: For every (token, price, side) triple with no existing record, the
first in-band observation for a mapped token, regardless of its size,
creates a record in the BASELINE state (`trackedDelta = 0`,
`deltaFirstSeen = null`, `alerted = false`, `previousSize` = the observed
size) and never produces a TRACKING state or an alert. -/
theorem first_observation_lands_in_baseline
    (t : OrderTracker) (tokenId : String) (price newSize now : ℚ) (side : Side)
    (mi : MatchInfo)
    (hlo : t.config.minPrice ≤ price) (hhi : price ≤ t.config.maxPrice)
    (hmap : aget t.tokenMap tokenId = some mi)
    (hnew : aget t.priceLevels (generateLevelId tokenId price side) = none) :
    aget (processOrderLevel t tokenId price newSize side now).priceLevels
        (generateLevelId tokenId price side) =
      some { tokenId := tokenId, price := price, side := side,
             previousSize := newSize, baselineSize := newSize,
             trackedDelta := 0, deltaFirstSeen := none, alerted := false } ∧
    ∀ cfg' tm' now',
      (checkOneLevel cfg' tm' now'
        (generateLevelId tokenId price side,
         { tokenId := tokenId, price := price, side := side,
           previousSize := newSize, baselineSize := newSize,
           trackedDelta := 0, deltaFirstSeen := none, alerted := false })).2
        = [] := by
  have hguard : ¬(price < t.config.minPrice ∨ price > t.config.maxPrice) := by
    push_neg
    exact ⟨hlo, hhi⟩
  refine ⟨?_, ?_⟩
  · simp only [processOrderLevel, if_neg hguard, hmap, hnew]
    exact aget_aset_self _ _ _
  · intro cfg' tm' now'
    exact checkOneLevel_no_alert_of_not_tracking cfg' tm' now' _ _ rfl

/-- C2: for an existing record in the BASELINE state (`trackedDelta = 0`)
and an in-band observation for a mapped token, with
`delta = size - previousSize` and
`impact = delta / previousSize` when `previousSize > 0` else `1`:
the level transitions to TRACKING iff `delta ≥ minSize` and
`impact ≥ minImpactPercent`, and on that transition `baselineSize` is the
pre-jump `previousSize`, `trackedDelta = delta`, `deltaFirstSeen = now`,
`alerted = false`; in particular with `previousSize = 0`,
`size ≥ minSize` and `minImpactPercent ≤ 1` the level always enters
TRACKING.  Otherwise only `previousSize` changes. -/
theorem baseline_tracking_transition
    (t : OrderTracker) (tokenId : String) (price newSize now : ℚ) (side : Side)
    (mi : MatchInfo) (level : PriceLevel)
    (hlo : t.config.minPrice ≤ price) (hhi : price ≤ t.config.maxPrice)
    (hmap : aget t.tokenMap tokenId = some mi)
    (hlev : aget t.priceLevels (generateLevelId tokenId price side) = some level)
    (hbase : level.trackedDelta = 0) :
    aget (processOrderLevel t tokenId price newSize side now).priceLevels
        (generateLevelId tokenId price side) =
      some (if newSize - level.previousSize ≥ t.config.minSize ∧
               (if level.previousSize > 0
                then (newSize - level.previousSize) / level.previousSize
                else 1) ≥ t.config.minImpactPercent
        then { level with baselineSize := level.previousSize,
                          trackedDelta := newSize - level.previousSize,
                          deltaFirstSeen := some now, alerted := false,
                          previousSize := newSize }
        else { level with previousSize := newSize }) ∧
    ((level.previousSize = 0 ∧ newSize ≥ t.config.minSize ∧
        t.config.minImpactPercent ≤ 1) →
      aget (processOrderLevel t tokenId price newSize side now).priceLevels
          (generateLevelId tokenId price side) =
        some { level with baselineSize := 0, trackedDelta := newSize,
                          deltaFirstSeen := some now, alerted := false,
                          previousSize := newSize }) := by
  have hguard : ¬(price < t.config.minPrice ∨ price > t.config.maxPrice) := by
    push_neg
    exact ⟨hlo, hhi⟩
  have hnt : ¬ level.trackedDelta > 0 := by rw [hbase]; exact lt_irrefl 0
  have hmain :
      aget (processOrderLevel t tokenId price newSize side now).priceLevels
        (generateLevelId tokenId price side) =
      some (if newSize - level.previousSize ≥ t.config.minSize ∧
               (if level.previousSize > 0
                then (newSize - level.previousSize) / level.previousSize
                else 1) ≥ t.config.minImpactPercent
        then { level with baselineSize := level.previousSize,
                          trackedDelta := newSize - level.previousSize,
                          deltaFirstSeen := some now, alerted := false,
                          previousSize := newSize }
        else { level with previousSize := newSize }) := by
    simp only [processOrderLevel, if_neg hguard, hmap, hlev, if_neg hnt]
    by_cases hds : newSize - level.previousSize ≥ t.config.minSize
    · by_cases him : (if level.previousSize > 0
            then (newSize - level.previousSize) / level.previousSize
            else 1) ≥ t.config.minImpactPercent
      · simp only [if_pos hds, if_pos him, if_pos (And.intro hds him)]
        exact aget_aset_self _ _ _
      · simp only [if_pos hds, if_neg him,
          if_neg (fun h : _ ∧ _ => him h.2)]
        exact aget_aset_self _ _ _
    · simp only [if_neg hds, if_neg (fun h : _ ∧ _ => hds h.1)]
      exact aget_aset_self _ _ _
  refine ⟨hmain, ?_⟩
  rintro ⟨h0, hmin, himp⟩
  rw [hmain]
  have hcond : newSize - level.previousSize ≥ t.config.minSize ∧
      (if level.previousSize > 0
       then (newSize - level.previousSize) / level.previousSize
       else 1) ≥ t.config.minImpactPercent := by
    constructor
    · rw [h0, sub_zero]; exact hmin
    · rw [h0]; simp [himp]
  rw [if_pos hcond, h0]
  simp

/-- C3: for an existing record in the TRACKING or ALERTED state
(`trackedDelta > 0`) and an in-band observation for a mapped token, with
`currentDeltaFromBaseline = size - baselineSize`: if it is at least
`trackedDelta * (1 - deltaTolerance)` the level stays in its state,
`trackedDelta` is raised to `currentDeltaFromBaseline` exactly when that
exceeds it, and `deltaFirstSeen` and `alerted` are unchanged; otherwise
the level hard-resets to BASELINE (`trackedDelta = 0`,
`deltaFirstSeen = null`, `alerted = false`, `baselineSize = size`),
emitting no alert. -/
theorem tracking_tolerance_band
    (t : OrderTracker) (tokenId : String) (price newSize now : ℚ) (side : Side)
    (mi : MatchInfo) (level : PriceLevel)
    (hlo : t.config.minPrice ≤ price) (hhi : price ≤ t.config.maxPrice)
    (hmap : aget t.tokenMap tokenId = some mi)
    (hlev : aget t.priceLevels (generateLevelId tokenId price side) = some level)
    (htrack : level.trackedDelta > 0) :
    aget (processOrderLevel t tokenId price newSize side now).priceLevels
        (generateLevelId tokenId price side) =
      some (if newSize - level.baselineSize ≥
               level.trackedDelta * (1 - t.config.deltaTolerance)
        then (if newSize - level.baselineSize > level.trackedDelta
          then { level with trackedDelta := newSize - level.baselineSize,
                            previousSize := newSize }
          else { level with previousSize := newSize })
        else { level with trackedDelta := 0, deltaFirstSeen := none,
                          alerted := false, baselineSize := newSize,
                          previousSize := newSize }) ∧
    ∀ cfg' tm' now',
      (checkOneLevel cfg' tm' now'
        (generateLevelId tokenId price side,
         { level with trackedDelta := 0, deltaFirstSeen := none,
                      alerted := false, baselineSize := newSize,
                      previousSize := newSize })).2 = [] := by
  have hguard : ¬(price < t.config.minPrice ∨ price > t.config.maxPrice) := by
    push_neg
    exact ⟨hlo, hhi⟩
  refine ⟨?_, ?_⟩
  · simp only [processOrderLevel, if_neg hguard, hmap, hlev, if_pos htrack]
    by_cases htol : newSize - level.baselineSize ≥
        level.trackedDelta * (1 - t.config.deltaTolerance)
    · by_cases hgrow : newSize - level.baselineSize > level.trackedDelta
      · simp only [if_pos htol, if_pos hgrow]
        exact aget_aset_self _ _ _
      · simp only [if_pos htol, if_neg hgrow]
        exact aget_aset_self _ _ _
    · simp only [if_neg htol]
      exact aget_aset_self _ _ _
  · intro cfg' tm' now'
    exact checkOneLevel_no_alert_of_not_tracking cfg' tm' now' _ _ rfl

/-- C7: for every (token, price, side): if a record exists, `removeOrder`
forces `previousSize = 0` and performs the hard reset
(`trackedDelta = 0`, `deltaFirstSeen = null`, `alerted = false`,
`baselineSize = 0`) regardless of state, emitting no alert and leaving
every other record unchanged; if no record exists, `removeOrder` is a
no-op. -/
theorem removeOrder_hard_reset_or_noop
    (t : OrderTracker) (tokenId : String) (price : ℚ) (side : Side) :
    (∀ level,
       aget t.priceLevels (generateLevelId tokenId price side) = some level →
       aget (removeOrder t tokenId price side).priceLevels
           (generateLevelId tokenId price side) =
         some { level with previousSize := 0, baselineSize := 0,
                           trackedDelta := 0, deltaFirstSeen := none,
                           alerted := false } ∧
       (∀ k', k' ≠ generateLevelId tokenId price side →
          aget (removeOrder t tokenId price side).priceLevels k' =
            aget t.priceLevels k') ∧
       (∀ cfg' tm' now',
          (checkOneLevel cfg' tm' now'
            (generateLevelId tokenId price side,
             { level with previousSize := 0, baselineSize := 0,
                          trackedDelta := 0, deltaFirstSeen := none,
                          alerted := false })).2 = [])) ∧
    (aget t.priceLevels (generateLevelId tokenId price side) = none →
       removeOrder t tokenId price side = t) := by
  constructor
  · intro level hlev
    refine ⟨?_, ?_, ?_⟩
    · simp only [removeOrder, hlev]
      exact aget_aset_self _ _ _
    · intro k' hk'
      simp only [removeOrder, hlev]
      exact aget_aset_ne _ _ _ _ hk'
    · intro cfg' tm' now'
      exact checkOneLevel_no_alert_of_not_tracking cfg' tm' now' _ _ rfl
  · intro hnone
    simp [removeOrder, hnone]

/-! ### Concrete witnesses for the per-level observation theorems -/

/-- Witness for `first_observation_lands_in_baseline` at a concrete
tracker with no prior record. -/
theorem first_observation_lands_in_baseline_witness :
    let cfg : MonitorConfig := ⟨10000, 1/20, 19/20, 120, 1/10, 3/5⟩
    let t : OrderTracker := ⟨[], cfg, [("tokA", ⟨"m", "o"⟩)]⟩
    aget (processOrderLevel t "tokA" (2/5) 12000 Side.BUY 7).priceLevels
        (generateLevelId "tokA" (2/5) Side.BUY) =
      some { tokenId := "tokA", price := 2/5, side := Side.BUY,
             previousSize := 12000, baselineSize := 12000,
             trackedDelta := 0, deltaFirstSeen := none,
             alerted := false } := by
  intro cfg t
  exact (first_observation_lands_in_baseline t "tokA" (2/5) 12000 7 Side.BUY
    ⟨"m", "o"⟩ (by norm_num [t, cfg]) (by norm_num [t, cfg])
    (by simp [t, aget]) rfl).1

/-- Witness for `baseline_tracking_transition`: the spec's scenario
(baseline 1000, observation 12000, `minSize = 10000`,
`minImpactPercent = 0.6`) enters TRACKING with `trackedDelta = 11000`
and `baselineSize = 1000`. -/
theorem baseline_tracking_transition_witness :
    let cfg : MonitorConfig := ⟨10000, 1/20, 19/20, 120, 1/10, 3/5⟩
    let lvl : PriceLevel :=
      ⟨"tokA", 2/5, Side.BUY, 1000, 1000, 0, none, false⟩
    let t : OrderTracker :=
      ⟨[(generateLevelId "tokA" (2/5) Side.BUY, lvl)], cfg,
       [("tokA", ⟨"m", "o"⟩)]⟩
    aget (processOrderLevel t "tokA" (2/5) 12000 Side.BUY 7).priceLevels
        (generateLevelId "tokA" (2/5) Side.BUY) =
      some { tokenId := "tokA", price := 2/5, side := Side.BUY,
             previousSize := 12000, baselineSize := 1000,
             trackedDelta := 11000, deltaFirstSeen := some 7,
             alerted := false } := by
  intro cfg lvl t
  have h := (baseline_tracking_transition t "tokA" (2/5) 12000 7 Side.BUY
    ⟨"m", "o"⟩ lvl (by norm_num [t, cfg]) (by norm_num [t, cfg])
    (by simp [t, aget]) (by simp [t, aget]) rfl).1
  rw [h]
  norm_num [lvl, t, cfg]

/-- Witness for `tracking_tolerance_band`: the spec's scenario
(tracking 11000 over baseline 1000, observation 11500, tolerance 10%)
stays within the band and leaves `trackedDelta` at 11000. -/
theorem tracking_tolerance_band_witness :
    let cfg : MonitorConfig := ⟨10000, 1/20, 19/20, 120, 1/10, 3/5⟩
    let lvl : PriceLevel :=
      ⟨"tokA", 2/5, Side.BUY, 12000, 1000, 11000, some 0, false⟩
    let t : OrderTracker :=
      ⟨[(generateLevelId "tokA" (2/5) Side.BUY, lvl)], cfg,
       [("tokA", ⟨"m", "o"⟩)]⟩
    aget (processOrderLevel t "tokA" (2/5) 11500 Side.BUY 60).priceLevels
        (generateLevelId "tokA" (2/5) Side.BUY) =
      some { tokenId := "tokA", price := 2/5, side := Side.BUY,
             previousSize := 11500, baselineSize := 1000,
             trackedDelta := 11000, deltaFirstSeen := some 0,
             alerted := false } := by
  intro cfg lvl t
  have h := (tracking_tolerance_band t "tokA" (2/5) 11500 60 Side.BUY
    ⟨"m", "o"⟩ lvl (by norm_num [t, cfg]) (by norm_num [t, cfg])
    (by simp [t, aget]) (by simp [t, aget]) (by norm_num [lvl])).1
  rw [h]
  norm_num [lvl, t, cfg]

/-- Witness for `removeOrder_hard_reset_or_noop`: a tracked level is
hard-reset in place, and removing an absent level is a no-op. -/
theorem removeOrder_hard_reset_or_noop_witness :
    let cfg : MonitorConfig := ⟨10000, 1/20, 19/20, 120, 1/10, 3/5⟩
    let lvl : PriceLevel :=
      ⟨"tokA", 2/5, Side.BUY, 12000, 1000, 11000, some 0, true⟩
    let t : OrderTracker :=
      ⟨[(generateLevelId "tokA" (2/5) Side.BUY, lvl)], cfg,
       [("tokA", ⟨"m", "o"⟩)]⟩
    let tEmpty : OrderTracker := ⟨[], cfg, [("tokA", ⟨"m", "o"⟩)]⟩
    aget (removeOrder t "tokA" (2/5) Side.BUY).priceLevels
        (generateLevelId "tokA" (2/5) Side.BUY) =
      some { tokenId := "tokA", price := 2/5, side := Side.BUY,
             previousSize := 0, baselineSize := 0, trackedDelta := 0,
             deltaFirstSeen := none, alerted := false } ∧
    removeOrder tEmpty "tokA" (2/5) Side.BUY = tEmpty := by
  intro cfg lvl t tEmpty
  constructor
  · have h := ((removeOrder_hard_reset_or_noop t "tokA" (2/5) Side.BUY).1
      lvl (by simp [t, aget])).1
    rw [h]
  · exact (removeOrder_hard_reset_or_noop tEmpty "tokA" (2/5) Side.BUY).2 rfl

/-- C1 (amended: the level's token must be in the current token map —
see the counterexample for the unmapped case): for every level in the
TRACKING state (`trackedDelta > 0`, `alerted = false`, `deltaFirstSeen`
set) whose age `now - deltaFirstSeen` has reached `alertAgeSeconds`, a
run of `checkOrderAges` emits exactly one alert for that level, whose
`size` equals `trackedDelta`, and sets `alerted := true`; once `alerted`
is true, no further run emits an alert for that level or changes it. -/
theorem tracking_age_alert_exactly_once
    (t : OrderTracker) (now : ℚ) (k : LevelKey) (level : PriceLevel)
    (mi : MatchInfo) (firstSeen : ℚ)
    (hnodup : (t.priceLevels.map Prod.fst).Nodup)
    (hlev : aget t.priceLevels k = some level)
    (htrack : level.trackedDelta > 0)
    (halert : level.alerted = false)
    (hseen : level.deltaFirstSeen = some firstSeen)
    (hage : now - firstSeen ≥ t.config.alertAgeSeconds * 1000)
    (hmap : aget t.tokenMap level.tokenId = some mi) :
    (checkOrderAges t now).2.filter (fun a => a.orderId = k) =
      [{ timestamp := now, matchSlug := mi.slug, market := mi.outcome,
         tokenId := level.tokenId, orderId := k, price := level.price,
         size := level.trackedDelta, side := level.side,
         ageSeconds := ⌊(now - firstSeen) / 1000⌋ }] ∧
    aget (checkOrderAges t now).1.priceLevels k =
      some { level with alerted := true } ∧
    (∀ (t' : OrderTracker) (now' : ℚ) (level' : PriceLevel),
       (t'.priceLevels.map Prod.fst).Nodup →
       aget t'.priceLevels k = some level' → level'.alerted = true →
       (checkOrderAges t' now').2.filter (fun a => a.orderId = k) = [] ∧
       aget (checkOrderAges t' now').1.priceLevels k = some level') := by
  have htr : ¬ level.trackedDelta = 0 := ne_of_gt htrack
  have helig := checkOneLevel_eligible t.config t.tokenMap now k level
    firstSeen mi htr halert hseen hage hmap
  refine ⟨?_, ?_, ?_⟩
  · rw [alerts_checkOrderAges t now k level hnodup hlev, helig]
  · rw [aget_checkOrderAges t now k level hlev, helig]
  · intro t' now' level' hnodup' hlev' halert'
    have hskip := checkOneLevel_skip_alerted t'.config t'.tokenMap now'
      (k, level') halert'
    constructor
    · rw [alerts_checkOrderAges t' now' k level' hnodup' hlev', hskip]
    · rw [aget_checkOrderAges t' now' k level' hlev', hskip]

/-- Witness for `tracking_age_alert_exactly_once` at a concrete
tracker. -/
theorem tracking_age_alert_exactly_once_witness :
    let cfg : MonitorConfig := ⟨10000, 1/20, 19/20, 120, 1/10, 3/5⟩
    let lvl : PriceLevel :=
      ⟨"tokA", 2/5, Side.BUY, 12000, 1000, 11000, some 0, false⟩
    let k : LevelKey := ⟨"tokA", 40, Side.BUY⟩
    let t : OrderTracker := ⟨[(k, lvl)], cfg, [("tokA", ⟨"m", "o"⟩)]⟩
    (checkOrderAges t 120000).2.filter (fun a => a.orderId = k) =
      [{ timestamp := 120000, matchSlug := "m", market := "o",
         tokenId := "tokA", orderId := k, price := 2/5,
         size := 11000, side := Side.BUY, ageSeconds := 120 }] ∧
    aget (checkOrderAges t 120000).1.priceLevels k =
      some { lvl with alerted := true } := by
  intro cfg lvl k t
  have h := tracking_age_alert_exactly_once t 120000 k lvl ⟨"m", "o"⟩ 0
    (by simp [t]) (by simp [t, aget]) (by norm_num [lvl]) rfl rfl
    (by norm_num [t, cfg]) (by simp [t, lvl, aget])
  refine ⟨?_, h.2.1⟩
  rw [h.1]
  norm_num

/-- C1 counterexample: a level that is in TRACKING and past the alert
age but whose token is absent from the token map produces no alert at
all in a `checkOrderAges` run (the claim, as stated, requires exactly
one). -/
theorem tracking_age_alert_unmapped_counterexample :
    let cfg : MonitorConfig := ⟨10000, 1/20, 19/20, 120, 1/10, 3/5⟩
    let lvl : PriceLevel :=
      ⟨"tokB", 2/5, Side.BUY, 12000, 1000, 11000, some 0, false⟩
    let k : LevelKey := ⟨"tokB", 40, Side.BUY⟩
    let t : OrderTracker := ⟨[(k, lvl)], cfg, [("tokA", ⟨"m", "o"⟩)]⟩
    aget t.priceLevels k = some lvl ∧ lvl.trackedDelta > 0 ∧
    lvl.alerted = false ∧ lvl.deltaFirstSeen = some 0 ∧
    (120000 : ℚ) - 0 ≥ cfg.alertAgeSeconds * 1000 ∧
    (checkOrderAges t 120000).2 = [] := by
  intro cfg lvl k t
  refine ⟨by simp [t, aget], by norm_num [lvl], rfl, rfl,
    by norm_num [cfg], ?_⟩
  have h := checkOneLevel_skip_unmapped cfg [("tokA", ⟨"m", "o"⟩)] 120000
    (k, lvl) (by simp [lvl, aget])
  simp [checkOrderAges, t, h]

/-- C9: for every level in the TRACKING state whose age has reached
`alertAgeSeconds` but whose token is absent from the current token map,
a run of `checkOrderAges` emits no alert for it and leaves the record
completely unchanged, so the alert can still be emitted by a later run
once the token map again contains that token. -/
theorem unmapped_token_alert_deferred
    (t : OrderTracker) (now : ℚ) (k : LevelKey) (level : PriceLevel)
    (firstSeen : ℚ)
    (hnodup : (t.priceLevels.map Prod.fst).Nodup)
    (hlev : aget t.priceLevels k = some level)
    (htrack : level.trackedDelta > 0)
    (halert : level.alerted = false)
    (hseen : level.deltaFirstSeen = some firstSeen)
    (hage : now - firstSeen ≥ t.config.alertAgeSeconds * 1000)
    (hmap : aget t.tokenMap level.tokenId = none) :
    (checkOrderAges t now).2.filter (fun a => a.orderId = k) = [] ∧
    aget (checkOrderAges t now).1.priceLevels k = some level ∧
    (∀ (tm' : List (String × MatchInfo)) (mi : MatchInfo) (now' : ℚ),
       aget tm' level.tokenId = some mi →
       now' - firstSeen ≥ t.config.alertAgeSeconds * 1000 →
       (checkOrderAges (updateTokenMap t tm') now').2.filter
           (fun a => a.orderId = k) =
         [{ timestamp := now', matchSlug := mi.slug, market := mi.outcome,
            tokenId := level.tokenId, orderId := k, price := level.price,
            size := level.trackedDelta, side := level.side,
            ageSeconds := ⌊(now' - firstSeen) / 1000⌋ }]) := by
  have hskip := checkOneLevel_skip_unmapped t.config t.tokenMap now
    (k, level) hmap
  refine ⟨?_, ?_, ?_⟩
  · rw [alerts_checkOrderAges t now k level hnodup hlev, hskip]
  · rw [aget_checkOrderAges t now k level hlev, hskip]
  · intro tm' mi now' hmap' hage'
    have helig := checkOneLevel_eligible t.config tm' now' k level
      firstSeen mi (ne_of_gt htrack) halert hseen hage' hmap'
    rw [alerts_checkOrderAges (updateTokenMap t tm') now' k level hnodup hlev]
    simp only [updateTokenMap]
    rw [helig]

/-- Witness for `unmapped_token_alert_deferred` at a concrete tracker
whose token map lacks the level's token. -/
theorem unmapped_token_alert_deferred_witness :
    let cfg : MonitorConfig := ⟨10000, 1/20, 19/20, 120, 1/10, 3/5⟩
    let lvl : PriceLevel :=
      ⟨"tokB", 2/5, Side.BUY, 12000, 1000, 11000, some 0, false⟩
    let k : LevelKey := ⟨"tokB", 40, Side.BUY⟩
    let t : OrderTracker := ⟨[(k, lvl)], cfg, [("tokA", ⟨"m", "o"⟩)]⟩
    (checkOrderAges t 120000).2.filter (fun a => a.orderId = k) = [] ∧
    aget (checkOrderAges t 120000).1.priceLevels k = some lvl ∧
    (checkOrderAges (updateTokenMap t [("tokB", ⟨"m2", "o2"⟩)])
        240000).2.filter (fun a => a.orderId = k) =
      [{ timestamp := 240000, matchSlug := "m2", market := "o2",
         tokenId := "tokB", orderId := k, price := 2/5,
         size := 11000, side := Side.BUY, ageSeconds := 240 }] := by
  intro cfg lvl k t
  have h := unmapped_token_alert_deferred t 120000 k lvl 0
    (by simp [t]) (by simp [t, aget]) (by norm_num [lvl]) rfl rfl
    (by norm_num [t, cfg]) (by simp [t, lvl, aget])
  refine ⟨h.1, h.2.1, ?_⟩
  have h3 := h.2.2 [("tokB", ⟨"m2", "o2"⟩)] ⟨"m2", "o2"⟩ 240000
    (by simp [lvl, aget]) (by norm_num [t, cfg])
  rw [h3]
  norm_num

/-! ## PolymarketWebSocketParser (src/parsers/polymarket-websocket.ts) -/

/-- `OrderBookEntry` of the parser. -/
structure OrderBookEntry where
  price : ℚ
  size : ℚ
  lastUpdate : ℚ
deriving DecidableEq, Repr

/-- `OrderBook` of the parser. -/
structure OrderBook where
  bids : List OrderBookEntry
  asks : List OrderBookEntry
  marketId : String
  timestamp : ℚ
deriving DecidableEq, Repr

/-- The bid comparator `(a, b) => b.price - a.price` (price descending);
JavaScript `Array.prototype.sort` is stable, as is `List.mergeSort`. -/
def bidLe (a b : OrderBookEntry) : Bool := decide (b.price ≤ a.price)

/-- The ask comparator `(a, b) => a.price - b.price` (price ascending). -/
def askLe (a b : OrderBookEntry) : Bool := decide (a.price ≤ b.price)

/-- One side of the `handlePriceChange` level update: find the level by
price (`findIndex`); if `size > 0` overwrite it (the found entry's
`price` already equals `price`, so overwriting the whole entry is the
same record) or push a new entry, then sort and truncate to 50 levels;
if `size ≤ 0` splice the found entry out, and silently ignore a remove
for a non-existent level. -/
def updateLevels (le : OrderBookEntry → OrderBookEntry → Bool)
    (levels : List OrderBookEntry) (price size now : ℚ) :
    List OrderBookEntry :=
  let existingIndex := levels.findIdx? (fun e => decide (e.price = price))
  if size > 0 then
    let levels' :=
      match existingIndex with
      | some i => levels.set i (⟨price, size, now⟩ : OrderBookEntry)
      | none => levels ++ [(⟨price, size, now⟩ : OrderBookEntry)]
    (levels'.mergeSort le).take 50
  else
    match existingIndex with
    | some i => levels.eraseIdx i
    | none => levels

/-- The mutable state of the parser that the book-handling methods
touch. -/
structure ParserState where
  subscribedTokenIds : List String
  orderBookState : List (String × OrderBook)
deriving DecidableEq, Repr

/-- One element of the `payload.pc` array of a `price_change` message:
`a` (asset id), `p` (price), `s` (size), `si` (side). -/
structure PriceChange where
  assetId : String
  price : ℚ
  size : ℚ
  side : Side
deriving DecidableEq, Repr

/-- The body of the `handlePriceChange` loop for a single price change
(`now` models the `new Date()` calls of the handler). -/
def handlePriceChangeOne (p : ParserState) (now : ℚ) (c : PriceChange) :
    ParserState :=
  let orderBook :=
    match aget p.orderBookState c.assetId with
    | some ob => ob
    | none => { bids := [], asks := [], marketId := c.assetId,
                timestamp := now }
  let orderBook' :=
    match c.side with
    | Side.BUY =>
      { orderBook with
          bids := updateLevels bidLe orderBook.bids c.price c.size now }
    | Side.SELL =>
      { orderBook with
          asks := updateLevels askLe orderBook.asks c.price c.size now }
  let orderBook'' := { orderBook' with timestamp := now }
  { p with orderBookState := aset p.orderBookState c.assetId orderBook'' }

/-- `handlePriceChange(payload)`: process each price change in order. -/
def handlePriceChange (p : ParserState) (now : ℚ)
    (priceChanges : List PriceChange) : ParserState :=
  priceChanges.foldl (fun st c => handlePriceChangeOne st now c) p

/-- The `agg_orderbook` payload:
`{ asset_id, bids: [{price, size}], asks: [{price, size}] }`. -/
structure AggOrderbookPayload where
  assetId : String
  bids : List (ℚ × ℚ)
  asks : List (ℚ × ℚ)
deriving DecidableEq, Repr

/-- `handleAggOrderbook(payload)`: replace the entire book for the asset
with the snapshot payload, as delivered. -/
def handleAggOrderbook (p : ParserState) (now : ℚ)
    (payload : AggOrderbookPayload) : ParserState :=
  let orderBook : OrderBook :=
    { bids := payload.bids.map (fun b => ⟨b.1, b.2, now⟩),
      asks := payload.asks.map (fun a => ⟨a.1, a.2, now⟩),
      marketId := payload.assetId, timestamp := now }
  { p with orderBookState := aset p.orderBookState payload.assetId orderBook }

/-- `updateSubscriptions(newTokenIds)`: with a nonempty argument and an
actual change, delete the order books of previously subscribed tokens
that are no longer subscribed and replace the subscription list. -/
def updateSubscriptions (p : ParserState) (newTokenIds : List String) :
    ParserState :=
  if newTokenIds.isEmpty then p
  else
    let toRemove :=
      p.subscribedTokenIds.filter (fun id => !(newTokenIds.contains id))
    let toAdd :=
      newTokenIds.filter (fun id => !(p.subscribedTokenIds.contains id))
    if toRemove.isEmpty && toAdd.isEmpty then p
    else
      { subscribedTokenIds := newTokenIds,
        orderBookState :=
          toRemove.foldl (fun obs tokenId => adel obs tokenId)
            p.orderBookState }

/-! ### Cleanup / subscription-update lemmas (C8) -/

section AssocLemmas2

variable {κ α : Type} [DecidableEq κ]

theorem aget_eq_none_of_not_mem_keys (m : List (κ × α)) (k : κ)
    (h : k ∉ m.map Prod.fst) : aget m k = none := by
  induction m with
  | nil => rfl
  | cons hd tl ih =>
    simp only [List.map_cons, List.mem_cons, not_or] at h
    simp only [aget, if_neg (fun hc : hd.1 = k => h.1 hc.symm)]
    exact ih h.2

theorem aget_adel_self (m : List (κ × α)) (k : κ)
    (hnodup : (m.map Prod.fst).Nodup) : aget (adel m k) k = none := by
  induction m with
  | nil => rfl
  | cons hd tl ih =>
    simp only [List.map_cons, List.nodup_cons] at hnodup
    by_cases hk : hd.1 = k
    · simp only [adel, if_pos hk]
      exact aget_eq_none_of_not_mem_keys tl k (hk ▸ hnodup.1)
    · simp only [adel, if_neg hk, aget, if_neg hk]
      exact ih hnodup.2

theorem aget_adel_ne (m : List (κ × α)) (k k' : κ) (h : k' ≠ k) :
    aget (adel m k) k' = aget m k' := by
  have h' : k ≠ k' := h.symm
  induction m with
  | nil => rfl
  | cons hd tl ih =>
    by_cases hk : hd.1 = k
    · subst hk
      simp [adel, aget, h, h']
    · by_cases hk' : hd.1 = k'
      · simp [adel, aget, hk, hk', h, h']
      · simpa [adel, aget, hk, hk', h, h'] using ih

theorem adel_keys_sublist (m : List (κ × α)) (k : κ) :
    (adel m k).map Prod.fst |>.Sublist (m.map Prod.fst) := by
  induction m with
  | nil => simp [adel]
  | cons hd tl ih =>
    by_cases hk : hd.1 = k
    · simp only [adel, if_pos hk, List.map_cons]
      exact (List.sublist_cons_self _ _)
    · simp only [adel, if_neg hk, List.map_cons]
      exact ih.cons₂ _

theorem aget_foldl_adel (ks : List κ) (m : List (κ × α)) (k : κ)
    (hnodup : (m.map Prod.fst).Nodup) :
    aget (ks.foldl (fun acc k' => adel acc k') m) k =
      if k ∈ ks then none else aget m k := by
  induction ks generalizing m with
  | nil => simp
  | cons hd tl ih =>
    have hnodup' : ((adel m hd).map Prod.fst).Nodup :=
      (adel_keys_sublist m hd).nodup hnodup
    simp only [List.foldl_cons]
    rw [ih (adel m hd) hnodup']
    by_cases hk : k ∈ tl
    · simp [hk]
    · by_cases hk' : k = hd
      · subst hk'
        simp [hk, aget_adel_self m k hnodup]
      · simp [hk, hk', aget_adel_ne m hd k hk']

theorem aget_filter (m : List (κ × α)) (P : κ × α → Bool) (k : κ)
    (hnodup : (m.map Prod.fst).Nodup) :
    aget (m.filter P) k =
      match aget m k with
      | some v => if P (k, v) then some v else none
      | none => none := by
  induction m with
  | nil => simp [aget]
  | cons hd tl ih =>
    simp only [List.map_cons, List.nodup_cons] at hnodup
    by_cases hk : hd.1 = k
    · have hhd : hd = (k, hd.2) := by rw [← hk]
      by_cases hP : P hd
      · rw [List.filter_cons_of_pos hP]
        simp only [aget, if_pos hk]
        rw [hhd] at hP
        simp [hP]
      · rw [List.filter_cons_of_neg hP]
        have : aget (tl.filter P) k = none := by
          rw [ih hnodup.2]
          have : aget tl k = none := by
            subst hk
            clear ih hP hhd
            induction tl with
            | nil => rfl
            | cons hd' tl' ih' =>
              have hne : hd'.1 ≠ hd.1 := by
                intro hc
                exact hnodup.1 (hc ▸ List.mem_map_of_mem Prod.fst
                  (List.mem_cons_self hd' tl'))
              simp only [aget, if_neg hne]
              exact ih' ⟨fun hm => hnodup.1 (List.mem_cons_of_mem _ hm),
                hnodup.2.of_cons⟩
          simp [this]
        rw [this]
        simp only [aget, if_pos hk]
        rw [hhd] at hP
        simp [hP]
    · have htail : aget (hd :: tl) k = aget tl k := by
        simp [aget, hk]
      by_cases hP : P hd
      · rw [List.filter_cons_of_pos hP]
        simp only [aget, if_neg hk]
        exact ih hnodup.2
      · rw [List.filter_cons_of_neg hP, htail]
        exact ih hnodup.2

end AssocLemmas2

/-- C8 (amended: the parser's `updateSubscriptions` only removes order
books of tokens that were in the subscription list, other stale books
are untouched, and an empty active set is a no-op — see the
counterexample): `cleanup(A)` keeps exactly the tracked levels whose
token is in `A`, each entirely unchanged, and `updateSubscriptions(A)`
(for nonempty `A`) removes exactly the order books of
previously-subscribed tokens outside `A` and leaves the others
unchanged. -/
theorem cleanup_and_updateSubscriptions_spec
    (t : OrderTracker) (A : List String)
    (p : ParserState) (hnodup : (p.orderBookState.map Prod.fst).Nodup)
    (hA : A ≠ []) :
    (∀ kv, kv ∈ (cleanup t A).priceLevels ↔
       kv ∈ t.priceLevels ∧ kv.2.tokenId ∈ A) ∧
    (∀ k level, (t.priceLevels.map Prod.fst).Nodup →
       aget t.priceLevels k = some level →
       aget (cleanup t A).priceLevels k =
         (if level.tokenId ∈ A then some level else none)) ∧
    (∀ tok, aget (updateSubscriptions p A).orderBookState tok =
       if tok ∈ p.subscribedTokenIds ∧ tok ∉ A then none
       else aget p.orderBookState tok) := by
  refine ⟨?_, ?_, ?_⟩
  · intro kv
    simp [cleanup, List.mem_filter]
  · intro k level hnd hget
    have h := aget_filter t.priceLevels
      (fun kv => A.contains kv.2.tokenId) k hnd
    simp only [cleanup]
    rw [h, hget]
    simp
  · intro tok
    simp only [updateSubscriptions]
    rw [if_neg (by simp [List.isEmpty_iff, hA])]
    by_cases hbranch :
        ((p.subscribedTokenIds.filter
            (fun id => !(A.contains id))).isEmpty &&
          (A.filter (fun id => !(p.subscribedTokenIds.contains id))).isEmpty)
          = true
    · rw [if_pos hbranch]
      simp only [Bool.and_eq_true, List.isEmpty_iff,
        List.filter_eq_nil_iff] at hbranch
      by_cases hc : tok ∈ p.subscribedTokenIds ∧ tok ∉ A
      · exact absurd (by simpa using hbranch.1 tok hc.1) (by simpa using hc.2)
      · simp [hc]
    · rw [if_neg hbranch]
      simp only
      rw [aget_foldl_adel _ _ _ hnodup]
      by_cases hc : tok ∈ p.subscribedTokenIds ∧ tok ∉ A
      · rw [if_pos (by simp [List.mem_filter, hc.1, hc.2]), if_pos hc]
      · rw [if_neg ?_, if_neg hc]
        intro hmem
        obtain ⟨h1, h2⟩ := List.mem_filter.mp hmem
        exact hc ⟨h1, by simpa using h2⟩

/-- Witness for `cleanup_and_updateSubscriptions_spec` on concrete
states: cleanup drops the level of the inactive token and keeps the
active one unchanged; `updateSubscriptions` drops the book of the
previously subscribed token that left the active set. -/
theorem cleanup_and_updateSubscriptions_spec_witness :
    let lvlA : PriceLevel := ⟨"A", 1, Side.BUY, 5, 5, 0, none, false⟩
    let lvlB : PriceLevel := ⟨"B", 1, Side.BUY, 7, 7, 0, none, false⟩
    let kA : LevelKey := ⟨"A", 100, Side.BUY⟩
    let kB : LevelKey := ⟨"B", 100, Side.BUY⟩
    let cfg : MonitorConfig := ⟨10000, 1/20, 19/20, 120, 1/10, 3/5⟩
    let t : OrderTracker := ⟨[(kA, lvlA), (kB, lvlB)], cfg, []⟩
    let bookA : OrderBook := ⟨[], [], "A", 0⟩
    let bookB : OrderBook := ⟨[], [], "B", 0⟩
    let p : ParserState := ⟨["A", "B"], [("A", bookA), ("B", bookB)]⟩
    aget (cleanup t ["A"]).priceLevels kA = some lvlA ∧
    aget (cleanup t ["A"]).priceLevels kB = none ∧
    aget (updateSubscriptions p ["A"]).orderBookState "B" = none ∧
    aget (updateSubscriptions p ["A"]).orderBookState "A" = some bookA := by
  intro lvlA lvlB kA kB cfg t bookA bookB p
  have h := cleanup_and_updateSubscriptions_spec t ["A"] p
    (by simp) (by simp)
  refine ⟨?_, ?_, ?_, ?_⟩
  · rw [h.2.1 kA lvlA (by simp [t, kA, kB]) (by simp [t, aget])]
    simp [lvlA]
  · rw [h.2.1 kB lvlB (by simp [t, kA, kB]) (by simp [t, kA, kB, aget])]
    simp [lvlB]
  · rw [h.2.2 "B"]
    simp [p]
  · rw [h.2.2 "A"]
    simp [p, aget]

/-- C8 counterexample: an order book held for a token that was never in
the subscription list survives `updateSubscriptions` even though its
token is not in the new active set (the claim, as stated, requires every
order-book entry of a token outside the active set to be removed). -/
theorem updateSubscriptions_stale_book_counterexample :
    let bookX : OrderBook := ⟨[], [], "X", 0⟩
    let p : ParserState := ⟨["A"], [("X", bookX)]⟩
    ("X" : String) ∉ ["A", "B"] ∧
    aget (updateSubscriptions p ["A", "B"]).orderBookState "X" =
      some bookX := by
  intro bookX p
  refine ⟨by simp, ?_⟩
  simp [updateSubscriptions, p, aget]

/-! ## AlertManager (alert-manager source) -/

/-- `getAlertKey(alert)`: the components of the deduplication key
`` `${alert.tokenId}_${alert.price.toFixed(2)}` ``. -/
def getAlertKey (a : OrderAlert) : String × ℤ := (a.tokenId, fix2 a.price)

/-- The `AlertManager` state the dedup logic touches: the persisted
`sentAlerts` key set, plus the list of alerts actually delivered
(console output, JSON log and Telegram notification all happen exactly
on the non-duplicate path of `handleAlert`). -/
structure AlertManagerState where
  sentAlerts : List (String × ℤ)
  delivered : List OrderAlert
deriving DecidableEq, Repr

/-- `AlertManager.handleAlert(alert)`: skip (with only a diagnostic log)
when the key is already in `sentAlerts`; otherwise record the key and
deliver the alert. -/
def handleAlert (s : AlertManagerState) (alert : OrderAlert) :
    AlertManagerState :=
  if s.sentAlerts.contains (getAlertKey alert) then s
  else { sentAlerts := getAlertKey alert :: s.sentAlerts,
         delivered := s.delivered ++ [alert] }

/-- A sequence of `handleAlert` calls. -/
def handleAlerts (s : AlertManagerState) (alerts : List OrderAlert) :
    AlertManagerState :=
  alerts.foldl handleAlert s

theorem handleAlert_skip (s : AlertManagerState) (a : OrderAlert)
    (h : getAlertKey a ∈ s.sentAlerts) : handleAlert s a = s := by
  simp [handleAlert, h]

theorem handleAlert_fresh (s : AlertManagerState) (a : OrderAlert)
    (h : getAlertKey a ∉ s.sentAlerts) :
    handleAlert s a =
      { sentAlerts := getAlertKey a :: s.sentAlerts,
        delivered := s.delivered ++ [a] } := by
  simp [handleAlert, h]

theorem handleAlert_contains_self (s : AlertManagerState) (a : OrderAlert) :
    getAlertKey a ∈ (handleAlert s a).sentAlerts := by
  by_cases h : getAlertKey a ∈ s.sentAlerts <;>
    simp [handleAlert, h]

theorem handleAlert_contains_mono (s : AlertManagerState) (a : OrderAlert)
    (k : String × ℤ) (h : k ∈ s.sentAlerts) :
    k ∈ (handleAlert s a).sentAlerts := by
  by_cases hc : getAlertKey a ∈ s.sentAlerts <;>
    simp [handleAlert, hc, h]

theorem handleAlerts_contains_mono (s : AlertManagerState)
    (alerts : List OrderAlert) (k : String × ℤ)
    (h : k ∈ s.sentAlerts) :
    k ∈ (handleAlerts s alerts).sentAlerts := by
  induction alerts generalizing s with
  | nil => exact h
  | cons hd tl ih =>
    exact ih (handleAlert s hd) (handleAlert_contains_mono s hd k h)

/-- C10: two alerts with the same tokenId and the same price formatted
to two decimals share the dedup key; after the first is handled the key
is in the persisted set, so every later alert with that key — whatever
its side or size, and with any other alerts handled in between — is
skipped with no state change and no delivery, while the first is
delivered when its key is fresh. -/
theorem alert_dedup_by_token_and_price
    (s : AlertManagerState) (a₁ a₂ : OrderAlert) (ms : List OrderAlert)
    (hkey : getAlertKey a₂ = getAlertKey a₁) :
    handleAlert (handleAlerts (handleAlert s a₁) ms) a₂ =
      handleAlerts (handleAlert s a₁) ms ∧
    (getAlertKey a₁ ∉ s.sentAlerts →
      (handleAlert s a₁).delivered = s.delivered ++ [a₁]) := by
  constructor
  · have hin : getAlertKey a₂ ∈
        (handleAlerts (handleAlert s a₁) ms).sentAlerts := by
      rw [hkey]
      exact handleAlerts_contains_mono (handleAlert s a₁) ms (getAlertKey a₁)
        (handleAlert_contains_self s a₁)
    exact handleAlert_skip _ a₂ hin
  · intro hfresh
    rw [handleAlert_fresh s a₁ hfresh]

/-- Witness for `alert_dedup_by_token_and_price`: a second alert at the
same token and 2-decimal price (different side and size, from a fresh
episode) is skipped; the first was delivered. -/
theorem alert_dedup_by_token_and_price_witness :
    let k : LevelKey := ⟨"tokA", 40, Side.BUY⟩
    let a₁ : OrderAlert :=
      ⟨120000, "m", "o", "tokA", k, 2/5, 11000, Side.BUY, 120⟩
    let a₂ : OrderAlert :=
      ⟨480000, "m", "o", "tokA", k, 2/5, 25000, Side.SELL, 360⟩
    let s : AlertManagerState := ⟨[], []⟩
    handleAlert (handleAlerts (handleAlert s a₁) []) a₂ =
      handleAlerts (handleAlert s a₁) [] ∧
    (handleAlert s a₁).delivered = [a₁] := by
  intro k a₁ a₂ s
  have h := alert_dedup_by_token_and_price s a₁ a₂ []
    (by simp [getAlertKey, a₁, a₂])
  exact ⟨h.1, by simpa [s] using h.2 (by simp [s])⟩

/-! ## Order-book side-level lemmas (C5, C6)

`upsert` and `removeFirst` are recursive restatements of the
`findIndex`-based update of `updateLevels`, proved equal to it below;
all reasoning is done on them. -/

/-- First-match overwrite-or-append of a level, the `size > 0` branch of
`updateLevels` before sorting and truncation. -/
def upsert (levels : List OrderBookEntry) (price size now : ℚ) :
    List OrderBookEntry :=
  match levels with
  | [] => [⟨price, size, now⟩]
  | e :: rest =>
    if e.price = price then ⟨price, size, now⟩ :: rest
    else e :: upsert rest price size now

/-- First-match removal of a level, the `size ≤ 0` branch of
`updateLevels`. -/
def removeFirst (levels : List OrderBookEntry) (price : ℚ) :
    List OrderBookEntry :=
  match levels with
  | [] => []
  | e :: rest =>
    if e.price = price then rest else e :: removeFirst rest price

/-- The aggregated size stored at a price (first match, as
`findIndex`). -/
def sizeAt (levels : List OrderBookEntry) (p : ℚ) : Option ℚ :=
  match levels with
  | [] => none
  | e :: rest => if e.price = p then some e.size else sizeAt rest p

theorem setOrAppend_eq_upsert (price size now : ℚ) :
    ∀ l : List OrderBookEntry,
    (match l.findIdx? (fun e => decide (e.price = price)) with
      | some i => l.set i (⟨price, size, now⟩ : OrderBookEntry)
      | none => l ++ [(⟨price, size, now⟩ : OrderBookEntry)]) =
      upsert l price size now := by
  intro l
  induction l with
  | nil => simp [upsert]
  | cons e rest ih =>
    by_cases he : e.price = price
    · simp [List.findIdx?_cons, he, upsert]
    · simp only [List.findIdx?_cons, decide_eq_true_eq, if_neg he,
        List.findIdx?_succ, upsert]
      cases hfind : rest.findIdx? (fun e => decide (e.price = price)) with
      | none =>
        rw [hfind] at ih
        simpa using ih
      | some j =>
        rw [hfind] at ih
        simpa using ih

theorem eraseIdx_eq_removeFirst (price : ℚ) :
    ∀ l : List OrderBookEntry,
    (match l.findIdx? (fun e => decide (e.price = price)) with
      | some i => l.eraseIdx i
      | none => l) =
      removeFirst l price := by
  intro l
  induction l with
  | nil => simp [removeFirst]
  | cons e rest ih =>
    by_cases he : e.price = price
    · simp [List.findIdx?_cons, he, removeFirst]
    · simp only [List.findIdx?_cons, decide_eq_true_eq, if_neg he,
        List.findIdx?_succ, removeFirst]
      cases hfind : rest.findIdx? (fun e => decide (e.price = price)) with
      | none =>
        rw [hfind] at ih
        simpa using ih
      | some j =>
        rw [hfind] at ih
        simpa using ih

theorem updateLevels_pos (le : OrderBookEntry → OrderBookEntry → Bool)
    (l : List OrderBookEntry) (price size now : ℚ) (h : 0 < size) :
    updateLevels le l price size now =
      ((upsert l price size now).mergeSort le).take 50 := by
  rw [updateLevels, if_pos h, setOrAppend_eq_upsert]

theorem updateLevels_nonpos (le : OrderBookEntry → OrderBookEntry → Bool)
    (l : List OrderBookEntry) (price size now : ℚ) (h : ¬ 0 < size) :
    updateLevels le l price size now = removeFirst l price := by
  rw [updateLevels, if_neg h, eraseIdx_eq_removeFirst]

theorem upsert_prices (l : List OrderBookEntry) (price size now : ℚ) :
    (upsert l price size now).map OrderBookEntry.price =
      if price ∈ l.map OrderBookEntry.price then l.map OrderBookEntry.price
      else l.map OrderBookEntry.price ++ [price] := by
  induction l with
  | nil => simp [upsert]
  | cons e rest ih =>
    by_cases he : e.price = price
    · simp [upsert, he]
    · have he' : ¬ price = e.price := fun h => he h.symm
      simp only [upsert, if_neg he, List.map_cons]
      rw [ih]
      by_cases hm : price ∈ rest.map OrderBookEntry.price
      · simp [hm, he']
      · simp [hm, he']

theorem upsert_of_not_mem (l : List OrderBookEntry) (price size now : ℚ)
    (h : price ∉ l.map OrderBookEntry.price) :
    upsert l price size now = l ++ [⟨price, size, now⟩] := by
  induction l with
  | nil => rfl
  | cons e rest ih =>
    simp only [List.map_cons, List.mem_cons, not_or] at h
    simp only [upsert, if_neg (fun hc : e.price = price => h.1 hc.symm),
      List.cons_append, List.cons.injEq, true_and]
    exact ih h.2

theorem upsert_size_pos (l : List OrderBookEntry) (price size now : ℚ)
    (hall : ∀ e ∈ l, 0 < e.size) (hs : 0 < size) :
    ∀ e ∈ upsert l price size now, 0 < e.size := by
  induction l with
  | nil =>
    intro e he
    simp only [upsert, List.mem_singleton] at he
    subst he
    exact hs
  | cons e₀ rest ih =>
    intro e he
    by_cases hc : e₀.price = price
    · simp only [upsert, if_pos hc, List.mem_cons] at he
      rcases he with he | he
      · subst he; exact hs
      · exact hall e (List.mem_cons_of_mem _ he)
    · simp only [upsert, if_neg hc, List.mem_cons] at he
      rcases he with he | he
      · subst he; exact hall e (List.mem_cons_self _ _)
      · exact ih (fun x hx => hall x (List.mem_cons_of_mem _ hx)) e he

theorem sizeAt_upsert (l : List OrderBookEntry) (price size now q : ℚ) :
    sizeAt (upsert l price size now) q =
      if q = price then some size else sizeAt l q := by
  induction l with
  | nil =>
    by_cases hq : q = price
    · simp [upsert, sizeAt, hq]
    · have hq' : ¬ price = q := fun h => hq h.symm
      simp [upsert, sizeAt, hq, hq']
  | cons e rest ih =>
    by_cases hc : e.price = price
    · by_cases hq : q = price
      · simp [upsert, sizeAt, hc, hq]
      · have hq' : ¬ price = q := fun h => hq h.symm
        simp [upsert, sizeAt, hc, hq, hq']
    · by_cases hq : e.price = q
      · have hqp : ¬ q = price := fun h => hc (hq.trans h)
        simp [upsert, sizeAt, hc, hq, hqp]
      · simp only [upsert, if_neg hc, sizeAt, if_neg hq]
        exact ih

theorem removeFirst_sublist (l : List OrderBookEntry) (price : ℚ) :
    List.Sublist (removeFirst l price) l := by
  induction l with
  | nil => simp [removeFirst]
  | cons e rest ih =>
    by_cases hc : e.price = price
    · simp only [removeFirst, if_pos hc]
      exact List.sublist_cons_self e rest
    · simp only [removeFirst, if_neg hc]
      exact ih.cons₂ e

theorem removeFirst_of_not_mem (l : List OrderBookEntry) (price : ℚ)
    (h : price ∉ l.map OrderBookEntry.price) :
    removeFirst l price = l := by
  induction l with
  | nil => rfl
  | cons e rest ih =>
    simp only [List.map_cons, List.mem_cons, not_or] at h
    simp only [removeFirst, if_neg (fun hc : e.price = price => h.1 hc.symm)]
    rw [ih h.2]

theorem sizeAt_removeFirst_ne (l : List OrderBookEntry) (price q : ℚ)
    (h : q ≠ price) : sizeAt (removeFirst l price) q = sizeAt l q := by
  induction l with
  | nil => rfl
  | cons e rest ih =>
    by_cases hc : e.price = price
    · have hq : ¬ e.price = q := fun hh => h ((hh.symm.trans hc))
      have hpq : ¬ price = q := fun hh => h hh.symm
      simp [removeFirst, sizeAt, hc, hq, hpq]
    · simp only [removeFirst, if_neg hc, sizeAt]
      by_cases hq : e.price = q
      · simp [hq]
      · simp only [if_neg hq]
        exact ih

theorem sizeAt_eq_none_iff (l : List OrderBookEntry) (p : ℚ) :
    sizeAt l p = none ↔ p ∉ l.map OrderBookEntry.price := by
  induction l with
  | nil => simp [sizeAt]
  | cons e rest ih =>
    by_cases hc : e.price = p
    · simp [sizeAt, hc]
    · have hc' : ¬ p = e.price := fun h => hc h.symm
      simp [sizeAt, hc, ih, hc']

theorem sizeAt_removeFirst_self (l : List OrderBookEntry) (price : ℚ)
    (hnodup : (l.map OrderBookEntry.price).Nodup) :
    sizeAt (removeFirst l price) price = none := by
  induction l with
  | nil => rfl
  | cons e rest ih =>
    simp only [List.map_cons, List.nodup_cons] at hnodup
    by_cases hc : e.price = price
    · simp only [removeFirst, if_pos hc]
      exact (sizeAt_eq_none_iff rest price).mpr (hc ▸ hnodup.1)
    · simp only [removeFirst, if_neg hc, sizeAt, if_neg hc]
      exact ih hnodup.2

theorem sizeAt_some_mem (l : List OrderBookEntry) (p s : ℚ)
    (h : sizeAt l p = some s) : ∃ e ∈ l, e.price = p ∧ e.size = s := by
  induction l with
  | nil => simp [sizeAt] at h
  | cons e rest ih =>
    by_cases hc : e.price = p
    · simp only [sizeAt, if_pos hc, Option.some.injEq] at h
      exact ⟨e, List.mem_cons_self _ _, hc, h⟩
    · simp only [sizeAt, if_neg hc] at h
      obtain ⟨e', he', hp', hs'⟩ := ih h
      exact ⟨e', List.mem_cons_of_mem _ he', hp', hs'⟩

theorem sizeAt_of_mem (l : List OrderBookEntry) (e : OrderBookEntry) (p : ℚ)
    (hnodup : (l.map OrderBookEntry.price).Nodup) (he : e ∈ l)
    (hp : e.price = p) : sizeAt l p = some e.size := by
  induction l with
  | nil => simp at he
  | cons e₀ rest ih =>
    simp only [List.map_cons, List.nodup_cons] at hnodup
    rcases List.mem_cons.mp he with he₀ | hrest
    · subst he₀
      simp [sizeAt, hp]
    · have hne : e₀.price ≠ p := by
        intro hc
        exact hnodup.1 (hc ▸ hp ▸ List.mem_map_of_mem OrderBookEntry.price
          hrest)
      simp only [sizeAt, if_neg hne]
      exact ih hnodup.2 hrest

theorem sizeAt_perm (l l' : List OrderBookEntry)
    (hnodup : (l.map OrderBookEntry.price).Nodup) (hp : l.Perm l') (q : ℚ) :
    sizeAt l q = sizeAt l' q := by
  have hnodup' : (l'.map OrderBookEntry.price).Nodup :=
    ((hp.map OrderBookEntry.price).nodup hnodup)
  cases h : sizeAt l q with
  | none =>
    rw [sizeAt_eq_none_iff] at h
    rw [eq_comm, sizeAt_eq_none_iff]
    exact fun hm => h ((hp.map OrderBookEntry.price).symm.subset hm)
  | some s =>
    obtain ⟨e, he, hpe, hse⟩ := sizeAt_some_mem l q s h
    rw [eq_comm, sizeAt_of_mem l' e q hnodup' (hp.subset he) hpe, hse]

/-- The per-side order-book invariant of the spec: distinct prices, no
stored zero-size level, sorted by the side's comparator, at most 50
levels (the depth cap). -/
def sideInvariant (le : OrderBookEntry → OrderBookEntry → Bool)
    (levels : List OrderBookEntry) : Prop :=
  (levels.map OrderBookEntry.price).Nodup ∧
  (∀ e ∈ levels, 0 < e.size) ∧
  levels.Pairwise (fun a b => le a b = true) ∧
  levels.length ≤ 50

/-- The order-book invariant: bids price-descending, asks
price-ascending, both sides duplicate-free, zero-free and capped. -/
def bookInvariant (b : OrderBook) : Prop :=
  sideInvariant bidLe b.bids ∧ sideInvariant askLe b.asks

theorem bidLe_trans (a b c : OrderBookEntry) (hab : bidLe a b = true)
    (hbc : bidLe b c = true) : bidLe a c = true := by
  simp only [bidLe, decide_eq_true_eq] at *
  exact hbc.trans hab

theorem bidLe_total (a b : OrderBookEntry) : bidLe a b || bidLe b a := by
  simp only [bidLe, Bool.or_eq_true, decide_eq_true_eq]
  exact le_total b.price a.price

theorem askLe_trans (a b c : OrderBookEntry) (hab : askLe a b = true)
    (hbc : askLe b c = true) : askLe a c = true := by
  simp only [askLe, decide_eq_true_eq] at *
  exact hab.trans hbc

theorem askLe_total (a b : OrderBookEntry) : askLe a b || askLe b a := by
  simp only [askLe, Bool.or_eq_true, decide_eq_true_eq]
  exact le_total a.price b.price

theorem updateLevels_sideInvariant
    (le : OrderBookEntry → OrderBookEntry → Bool)
    (htrans : ∀ a b c : OrderBookEntry,
      le a b = true → le b c = true → le a c = true)
    (htot : ∀ a b : OrderBookEntry, le a b || le b a)
    (l : List OrderBookEntry) (price size now : ℚ)
    (hinv : sideInvariant le l) :
    sideInvariant le (updateLevels le l price size now) := by
  obtain ⟨hnd, hsz, hsort, hlen⟩ := hinv
  by_cases hs : 0 < size
  · rw [updateLevels_pos le l price size now hs]
    have hperm : (upsert l price size now).mergeSort le |>.Perm
        (upsert l price size now) := List.mergeSort_perm _ le
    have hndu : ((upsert l price size now).map OrderBookEntry.price).Nodup := by
      rw [upsert_prices]
      by_cases hm : price ∈ l.map OrderBookEntry.price
      · simpa [hm] using hnd
      · rw [if_neg hm, List.nodup_append]
        refine ⟨hnd, List.nodup_singleton _, ?_⟩
        intro a ha hb
        simp only [List.mem_singleton] at hb
        subst hb
        exact hm ha
    refine ⟨?_, ?_, ?_, ?_⟩
    · have h1 : (((upsert l price size now).mergeSort le).map
          OrderBookEntry.price).Nodup :=
        ((hperm.map OrderBookEntry.price).symm).nodup hndu
      exact ((List.take_sublist 50 _).map OrderBookEntry.price).nodup h1
    · intro e he
      have he1 : e ∈ (upsert l price size now).mergeSort le :=
        (List.take_sublist 50 _).subset he
      exact upsert_size_pos l price size now hsz hs e (hperm.subset he1)
    · exact List.Pairwise.sublist (List.take_sublist 50 _)
        (List.sorted_mergeSort htrans htot (upsert l price size now))
    · exact List.length_take_le 50 _
  · rw [updateLevels_nonpos le l price size now hs]
    have hsub := removeFirst_sublist l price
    exact ⟨(hsub.map OrderBookEntry.price).nodup hnd,
      fun e he => hsz e (hsub.subset he),
      List.Pairwise.sublist hsub hsort,
      le_trans hsub.length_le hlen⟩

/-- C6 (amended: the invariant is preserved by incremental price-change
mutations, but a full snapshot stores the delivered payload verbatim, so
the invariant holds after a snapshot only if the payload itself
satisfies it — see the counterexample): if every book in the store
satisfies the invariant, every book still satisfies it after
`handlePriceChange` processes a price change; `handleAggOrderbook`
replaces the book with the payload as delivered. -/
theorem book_mutation_invariants
    (p : ParserState) (now : ℚ) (c : PriceChange)
    (hinv : ∀ tok ob, aget p.orderBookState tok = some ob → bookInvariant ob) :
    (∀ tok ob,
       aget (handlePriceChangeOne p now c).orderBookState tok = some ob →
       bookInvariant ob) ∧
    (∀ payload : AggOrderbookPayload,
       aget (handleAggOrderbook p now payload).orderBookState
           payload.assetId =
         some { bids := payload.bids.map (fun b => ⟨b.1, b.2, now⟩),
                asks := payload.asks.map (fun a => ⟨a.1, a.2, now⟩),
                marketId := payload.assetId, timestamp := now }) := by
  constructor
  · intro tok ob hget
    by_cases htok : tok = c.assetId
    · have hbase : bookInvariant
          (match aget p.orderBookState c.assetId with
            | some ob => ob
            | none => { bids := [], asks := [], marketId := c.assetId,
                        timestamp := now }) := by
        cases hb : aget p.orderBookState c.assetId with
        | some b => exact hinv c.assetId b hb
        | none =>
          refine ⟨⟨?_, ?_, ?_, ?_⟩, ⟨?_, ?_, ?_, ?_⟩⟩ <;> simp
      rw [htok] at hget
      simp only [handlePriceChangeOne, aget_aset_self,
        Option.some.injEq] at hget
      subst hget
      cases hside : c.side with
      | BUY =>
        simp only [hside]
        exact ⟨updateLevels_sideInvariant bidLe bidLe_trans bidLe_total _
            c.price c.size now hbase.1, hbase.2⟩
      | SELL =>
        simp only [hside]
        exact ⟨hbase.1, updateLevels_sideInvariant askLe askLe_trans
            askLe_total _ c.price c.size now hbase.2⟩
    · rw [handlePriceChangeOne] at hget
      simp only at hget
      rw [aget_aset_ne _ _ _ _ htok] at hget
      exact hinv tok ob hget
  · intro payload
    simp only [handleAggOrderbook]
    exact aget_aset_self _ _ _

/-- Witness for `book_mutation_invariants`: inserting a level into an
empty book yields an invariant-satisfying book, and a snapshot stores
its payload verbatim. -/
theorem book_mutation_invariants_witness :
    let p0 : ParserState := ⟨["tok"], []⟩
    let c0 : PriceChange := ⟨"tok", 1, 5, Side.BUY⟩
    bookInvariant { bids := [⟨1, 5, 5⟩], asks := [], marketId := "tok",
                    timestamp := 5 } ∧
    aget (handleAggOrderbook p0 5 ⟨"tok", [(1, 2)], []⟩).orderBookState
        "tok" =
      some { bids := [⟨1, 2, 5⟩], asks := [], marketId := "tok",
             timestamp := 5 } := by
  intro p0 c0
  have h := book_mutation_invariants p0 5 c0
    (by intro tok ob hh; exact absurd hh (by simp [p0, aget]))
  constructor
  · refine h.1 "tok" _ ?_
    norm_num [handlePriceChangeOne, p0, c0, aget, aset, updateLevels]
  · have h2 := h.2 ⟨"tok", [(1, 2)], []⟩
    simpa [p0] using h2

/-- C6 counterexample: a snapshot whose payload contains a size-0 level
is stored as delivered, so after this book mutation the store holds a
book with a zero-size level, violating the claimed invariant. -/
theorem snapshot_zero_size_counterexample :
    let p0 : ParserState := ⟨["tok"], []⟩
    let payload : AggOrderbookPayload := ⟨"tok", [(1, 0)], []⟩
    aget (handleAggOrderbook p0 5 payload).orderBookState "tok" =
      some { bids := [⟨1, 0, 5⟩], asks := [], marketId := "tok",
             timestamp := 5 } ∧
    ¬ bookInvariant { bids := [⟨1, 0, 5⟩], asks := [], marketId := "tok",
                      timestamp := 5 } := by
  intro p0 payload
  constructor
  · simp [handleAggOrderbook, p0, payload, aget, aset]
  · intro hinv
    have := hinv.1.2.1 ⟨1, 0, 5⟩ (by simp)
    norm_num at this

/-! ## Idempotent replay of incremental events (C5)

The side comparators of the source depend only on prices, so the
side-level lemmas are stated for a comparator `cmp : ℚ → ℚ → Bool`
lifted to entries by `entryLe`. -/

/-- An incremental absolute-size event of the feed, as consumed by
`handlePriceChange` for a single token: price, absolute size (`0`
removes), side, and the processing time. -/
structure IncEvent where
  price : ℚ
  size : ℚ
  side : Side
  now : ℚ
deriving DecidableEq, Repr

/-- `applyIncremental`: the effect of one incremental event on the
affected token's book (the body of the `handlePriceChange` loop, see
`handlePriceChangeOne_book`). -/
def applyIncremental (b : OrderBook) (ev : IncEvent) : OrderBook :=
  match ev.side with
  | Side.BUY =>
    { b with bids := updateLevels bidLe b.bids ev.price ev.size ev.now,
             timestamp := ev.now }
  | Side.SELL =>
    { b with asks := updateLevels askLe b.asks ev.price ev.size ev.now,
             timestamp := ev.now }

/-- A sequence of incremental events applied in order. -/
def applyEvents (b : OrderBook) (evs : List IncEvent) : OrderBook :=
  evs.foldl applyIncremental b

/-- The (price, size) view of a book's level lists, the state the
replay claim compares. -/
def levelsView (b : OrderBook) : List (ℚ × ℚ) × List (ℚ × ℚ) :=
  (b.bids.map (fun e => (e.price, e.size)),
   b.asks.map (fun e => (e.price, e.size)))

/-- `applyIncremental` is the `handlePriceChange` loop body: applying a
price change to a state whose store holds book `b` for the asset stores
exactly `applyIncremental b` for it. -/
theorem handlePriceChangeOne_book (p : ParserState) (now : ℚ)
    (c : PriceChange) (b : OrderBook)
    (hb : aget p.orderBookState c.assetId = some b) :
    aget (handlePriceChangeOne p now c).orderBookState c.assetId =
      some (applyIncremental b ⟨c.price, c.size, c.side, now⟩) := by
  simp only [handlePriceChangeOne, hb]
  rw [aget_aset_self]
  cases c.side <;> rfl

/-- A side event: the projection of an incremental event to one side. -/
structure SideEvent where
  price : ℚ
  size : ℚ
  now : ℚ
deriving DecidableEq, Repr

/-- Comparator on prices lifted to entries. -/
def entryLe (cmp : ℚ → ℚ → Bool) (a b : OrderBookEntry) : Bool :=
  cmp a.price b.price

/-- One side-level event application. -/
def sideApply (cmp : ℚ → ℚ → Bool) (l : List OrderBookEntry)
    (ev : SideEvent) : List OrderBookEntry :=
  updateLevels (entryLe cmp) l ev.price ev.size ev.now

/-- A sequence of side-level events applied in order. -/
def sideApplyAll (cmp : ℚ → ℚ → Bool) (l : List OrderBookEntry)
    (evs : List SideEvent) : List OrderBookEntry :=
  evs.foldl (sideApply cmp) l

/-- The last absolute size written to a price by a sequence of side
events, if any. -/
def lastWrite : List SideEvent → ℚ → Option ℚ
  | [], _ => none
  | ev :: rest, p =>
    match lastWrite rest p with
    | some s => some s
    | none => if ev.price = p then some ev.size else none

theorem upsert_length (l : List OrderBookEntry) (price size now : ℚ) :
    (upsert l price size now).length =
      if price ∈ l.map OrderBookEntry.price then l.length
      else l.length + 1 := by
  have h := upsert_prices l price size now
  by_cases hm : price ∈ l.map OrderBookEntry.price
  · rw [if_pos hm] at h
    rw [if_pos hm]
    have := congrArg List.length h
    simpa using this
  · rw [if_neg hm] at h
    rw [if_neg hm]
    have := congrArg List.length h
    simpa using this

theorem upsert_nodup (l : List OrderBookEntry) (price size now : ℚ)
    (hnd : (l.map OrderBookEntry.price).Nodup) :
    ((upsert l price size now).map OrderBookEntry.price).Nodup := by
  rw [upsert_prices]
  by_cases hm : price ∈ l.map OrderBookEntry.price
  · simpa [hm] using hnd
  · rw [if_neg hm, List.nodup_append]
    refine ⟨hnd, List.nodup_singleton _, ?_⟩
    intro a ha hb
    simp only [List.mem_singleton] at hb
    subst hb
    exact hm ha

theorem sizeAt_mergeSort (le : OrderBookEntry → OrderBookEntry → Bool)
    (l : List OrderBookEntry) (hnd : (l.map OrderBookEntry.price).Nodup)
    (q : ℚ) : sizeAt (l.mergeSort le) q = sizeAt l q := by
  have hperm : (l.mergeSort le).Perm l := List.mergeSort_perm l le
  have hnd' : ((l.mergeSort le).map OrderBookEntry.price).Nodup :=
    ((hperm.map OrderBookEntry.price).symm).nodup hnd
  exact sizeAt_perm _ _ hnd' hperm q

/-- The characterization of one side-level event: with at most 50
distinct prices in play, the 50-level truncation never fires, and the
event sets the absolute size at its own price (removing on size ≤ 0)
while leaving every other price unchanged. -/
theorem sizeAt_sideApply (cmp : ℚ → ℚ → Bool) (l : List OrderBookEntry)
    (ev : SideEvent) (q : ℚ)
    (hnd : (l.map OrderBookEntry.price).Nodup)
    (hbound : (insert ev.price (l.map OrderBookEntry.price).toFinset).card
      ≤ 50) :
    sizeAt (sideApply cmp l ev) q =
      if q = ev.price then (if 0 < ev.size then some ev.size else none)
      else sizeAt l q := by
  by_cases hs : 0 < ev.size
  · rw [sideApply, updateLevels_pos _ _ _ _ _ hs]
    have hcard : (l.map OrderBookEntry.price).toFinset.card =
        (l.map OrderBookEntry.price).length := by
      exact List.toFinset_card_of_nodup hnd
    have hlen : (upsert l ev.price ev.size ev.now).length ≤ 50 := by
      rw [upsert_length]
      by_cases hm : ev.price ∈ l.map OrderBookEntry.price
      · rw [if_pos hm]
        calc l.length = (l.map OrderBookEntry.price).length := by simp
        _ = (l.map OrderBookEntry.price).toFinset.card := hcard.symm
        _ ≤ (insert ev.price (l.map OrderBookEntry.price).toFinset).card :=
          Finset.card_le_card (Finset.subset_insert _ _)
        _ ≤ 50 := hbound
      · rw [if_neg hm]
        have hnm : ev.price ∉ (l.map OrderBookEntry.price).toFinset := by
          simpa [List.mem_toFinset] using hm
        calc l.length + 1
            = (l.map OrderBookEntry.price).toFinset.card + 1 := by
              rw [hcard]; simp
        _ = (insert ev.price (l.map OrderBookEntry.price).toFinset).card :=
          (Finset.card_insert_of_not_mem hnm).symm
        _ ≤ 50 := hbound
    rw [List.take_of_length_le (by rw [List.length_mergeSort]; exact hlen)]
    rw [sizeAt_mergeSort _ _ (upsert_nodup l ev.price ev.size ev.now hnd)]
    rw [sizeAt_upsert]
    simp [hs]
  · rw [sideApply, updateLevels_nonpos _ _ _ _ _ hs]
    by_cases hq : q = ev.price
    · subst hq
      rw [sizeAt_removeFirst_self _ _ hnd]
      simp [hs]
    · rw [sizeAt_removeFirst_ne _ _ _ hq]
      simp [hq]

theorem sideApply_nodup (cmp : ℚ → ℚ → Bool) (l : List OrderBookEntry)
    (ev : SideEvent) (hnd : (l.map OrderBookEntry.price).Nodup) :
    ((sideApply cmp l ev).map OrderBookEntry.price).Nodup := by
  by_cases hs : 0 < ev.size
  · rw [sideApply, updateLevels_pos _ _ _ _ _ hs]
    have h1 := upsert_nodup l ev.price ev.size ev.now hnd
    have hperm := List.mergeSort_perm (upsert l ev.price ev.size ev.now)
      (entryLe cmp)
    have h2 := ((hperm.map OrderBookEntry.price).symm).nodup h1
    exact ((List.take_sublist 50 _).map OrderBookEntry.price).nodup h2
  · rw [sideApply, updateLevels_nonpos _ _ _ _ _ hs]
    exact ((removeFirst_sublist l ev.price).map OrderBookEntry.price).nodup
      hnd

theorem sideApply_prices_subset (cmp : ℚ → ℚ → Bool)
    (l : List OrderBookEntry) (ev : SideEvent) :
    ((sideApply cmp l ev).map OrderBookEntry.price).toFinset ⊆
      insert ev.price (l.map OrderBookEntry.price).toFinset := by
  by_cases hs : 0 < ev.size
  · rw [sideApply, updateLevels_pos _ _ _ _ _ hs]
    intro x hx
    rw [List.mem_toFinset] at hx
    have hx1 : x ∈ ((upsert l ev.price ev.size ev.now).mergeSort
        (entryLe cmp)).map OrderBookEntry.price :=
      ((List.take_sublist 50 _).map OrderBookEntry.price).subset hx
    have hx2 : x ∈ (upsert l ev.price ev.size ev.now).map
        OrderBookEntry.price :=
      ((List.mergeSort_perm _ _).map OrderBookEntry.price).subset hx1
    rw [upsert_prices] at hx2
    by_cases hm : ev.price ∈ l.map OrderBookEntry.price
    · rw [if_pos hm] at hx2
      exact Finset.mem_insert_of_mem (List.mem_toFinset.mpr hx2)
    · rw [if_neg hm] at hx2
      rcases List.mem_append.mp hx2 with hx3 | hx3
      · exact Finset.mem_insert_of_mem (List.mem_toFinset.mpr hx3)
      · simp only [List.mem_singleton] at hx3
        subst hx3
        exact Finset.mem_insert_self _ _
  · rw [sideApply, updateLevels_nonpos _ _ _ _ _ hs]
    intro x hx
    rw [List.mem_toFinset] at hx
    have := ((removeFirst_sublist l ev.price).map OrderBookEntry.price).subset
      hx
    exact Finset.mem_insert_of_mem (List.mem_toFinset.mpr this)

theorem sideApplyAll_keys (cmp : ℚ → ℚ → Bool) (P : Finset ℚ)
    (evs : List SideEvent) (l : List OrderBookEntry)
    (hl : (l.map OrderBookEntry.price).toFinset ⊆ P)
    (hnd : (l.map OrderBookEntry.price).Nodup)
    (hevs : ∀ ev ∈ evs, ev.price ∈ P) :
    ((sideApplyAll cmp l evs).map OrderBookEntry.price).Nodup ∧
    ((sideApplyAll cmp l evs).map OrderBookEntry.price).toFinset ⊆ P := by
  induction evs generalizing l with
  | nil => exact ⟨hnd, hl⟩
  | cons ev rest ih =>
    have hev : ev.price ∈ P := hevs ev (List.mem_cons_self _ _)
    have hsub : ((sideApply cmp l ev).map OrderBookEntry.price).toFinset
        ⊆ P :=
      (sideApply_prices_subset cmp l ev).trans
        (Finset.insert_subset hev hl)
    exact ih (sideApply cmp l ev) hsub (sideApply_nodup cmp l ev hnd)
      (fun e he => hevs e (List.mem_cons_of_mem _ he))

/-- The fold characterization: with all prices drawn from a set of at
most 50, the final size at a price is its last write (with nonpositive
writes removing it), and an untouched price keeps its initial size. -/
theorem sizeAt_sideApplyAll (cmp : ℚ → ℚ → Bool) (P : Finset ℚ)
    (hcard : P.card ≤ 50) (evs : List SideEvent) (l : List OrderBookEntry)
    (hl : (l.map OrderBookEntry.price).toFinset ⊆ P)
    (hnd : (l.map OrderBookEntry.price).Nodup)
    (hevs : ∀ ev ∈ evs, ev.price ∈ P) (q : ℚ) :
    sizeAt (sideApplyAll cmp l evs) q =
      match lastWrite evs q with
      | some s => if 0 < s then some s else none
      | none => sizeAt l q := by
  induction evs generalizing l with
  | nil => simp [sideApplyAll, lastWrite]
  | cons ev rest ih =>
    have hev : ev.price ∈ P := hevs ev (List.mem_cons_self _ _)
    have hbound : (insert ev.price
        (l.map OrderBookEntry.price).toFinset).card ≤ 50 :=
      le_trans (Finset.card_le_card (Finset.insert_subset hev hl)) hcard
    have hstep := sizeAt_sideApply cmp l ev q hnd hbound
    have hsub : ((sideApply cmp l ev).map OrderBookEntry.price).toFinset
        ⊆ P :=
      (sideApply_prices_subset cmp l ev).trans
        (Finset.insert_subset hev hl)
    have htail := ih (sideApply cmp l ev) hsub
      (sideApply_nodup cmp l ev hnd)
      (fun e he => hevs e (List.mem_cons_of_mem _ he))
    show sizeAt (sideApplyAll cmp (sideApply cmp l ev) rest) q = _
    rw [htail]
    cases hlw : lastWrite rest q with
    | some s => simp [lastWrite, hlw]
    | none =>
      simp only [lastWrite, hlw]
      rw [hstep]
      by_cases hq : q = ev.price
      · simp [hq]
      · have hq' : ¬ ev.price = q := fun h => hq h.symm
        simp [hq, hq']

theorem sideApply_pairwise (cmp : ℚ → ℚ → Bool)
    (htrans : ∀ x y z : ℚ, cmp x y = true → cmp y z = true → cmp x z = true)
    (htot : ∀ x y : ℚ, cmp x y || cmp y x)
    (l : List OrderBookEntry) (ev : SideEvent)
    (hsort : l.Pairwise (fun a b => entryLe cmp a b = true)) :
    (sideApply cmp l ev).Pairwise (fun a b => entryLe cmp a b = true) := by
  by_cases hs : 0 < ev.size
  · rw [sideApply, updateLevels_pos _ _ _ _ _ hs]
    exact List.Pairwise.sublist (List.take_sublist 50 _)
      (List.sorted_mergeSort
        (fun a b c hab hbc => htrans a.price b.price c.price hab hbc)
        (fun a b => htot a.price b.price) _)
  · rw [sideApply, updateLevels_nonpos _ _ _ _ _ hs]
    exact List.Pairwise.sublist (removeFirst_sublist l ev.price) hsort

theorem sideApply_pairwise_pos (cmp : ℚ → ℚ → Bool)
    (htrans : ∀ x y z : ℚ, cmp x y = true → cmp y z = true → cmp x z = true)
    (htot : ∀ x y : ℚ, cmp x y || cmp y x)
    (l : List OrderBookEntry) (ev : SideEvent) (hs : 0 < ev.size) :
    (sideApply cmp l ev).Pairwise (fun a b => entryLe cmp a b = true) := by
  rw [sideApply, updateLevels_pos _ _ _ _ _ hs]
  exact List.Pairwise.sublist (List.take_sublist 50 _)
    (List.sorted_mergeSort
      (fun a b c hab hbc => htrans a.price b.price c.price hab hbc)
      (fun a b => htot a.price b.price) _)

theorem sideApplyAll_pairwise_preserve (cmp : ℚ → ℚ → Bool)
    (htrans : ∀ x y z : ℚ, cmp x y = true → cmp y z = true → cmp x z = true)
    (htot : ∀ x y : ℚ, cmp x y || cmp y x)
    (evs : List SideEvent) (l : List OrderBookEntry)
    (hsort : l.Pairwise (fun a b => entryLe cmp a b = true)) :
    (sideApplyAll cmp l evs).Pairwise
      (fun a b => entryLe cmp a b = true) := by
  induction evs generalizing l with
  | nil => exact hsort
  | cons ev rest ih =>
    exact ih (sideApply cmp l ev)
      (sideApply_pairwise cmp htrans htot l ev hsort)

theorem sideApplyAll_pairwise_of_pos (cmp : ℚ → ℚ → Bool)
    (htrans : ∀ x y z : ℚ, cmp x y = true → cmp y z = true → cmp x z = true)
    (htot : ∀ x y : ℚ, cmp x y || cmp y x)
    (evs : List SideEvent) (l : List OrderBookEntry)
    (hex : ∃ ev ∈ evs, 0 < ev.size) :
    (sideApplyAll cmp l evs).Pairwise
      (fun a b => entryLe cmp a b = true) := by
  induction evs generalizing l with
  | nil => simp at hex
  | cons ev rest ih =>
    by_cases hrest : ∃ e ∈ rest, 0 < e.size
    · exact ih (sideApply cmp l ev) hrest
    · have hev : 0 < ev.size := by
        rcases hex with ⟨e, he, hpos⟩
        rcases List.mem_cons.mp he with rfl | hm
        · exact hpos
        · exact absurd ⟨e, hm, hpos⟩ hrest
      exact sideApplyAll_pairwise_preserve cmp htrans htot rest _
        (sideApply_pairwise_pos cmp htrans htot l ev hev)

theorem sideApplyAll_eq_self_of_removes (cmp : ℚ → ℚ → Bool)
    (evs : List SideEvent) (l : List OrderBookEntry)
    (hnp : ∀ ev ∈ evs, ¬ 0 < ev.size)
    (habs : ∀ ev ∈ evs, sizeAt l ev.price = none) :
    sideApplyAll cmp l evs = l := by
  induction evs with
  | nil => rfl
  | cons ev rest ih =>
    have hstep : sideApply cmp l ev = l := by
      rw [sideApply, updateLevels_nonpos _ _ _ _ _
        (hnp ev (List.mem_cons_self _ _))]
      exact removeFirst_of_not_mem l ev.price
        ((sizeAt_eq_none_iff l ev.price).mp
          (habs ev (List.mem_cons_self _ _)))
    show sideApplyAll cmp (sideApply cmp l ev) rest = l
    rw [hstep]
    exact ih (fun e he => hnp e (List.mem_cons_of_mem _ he))
      (fun e he => habs e (List.mem_cons_of_mem _ he))

theorem lastWrite_some_mem (evs : List SideEvent) (p s : ℚ)
    (h : lastWrite evs p = some s) :
    ∃ ev ∈ evs, ev.price = p ∧ ev.size = s := by
  induction evs with
  | nil => simp [lastWrite] at h
  | cons ev rest ih =>
    cases hlw : lastWrite rest p with
    | some s' =>
      rw [lastWrite, hlw] at h
      simp only [Option.some.injEq] at h
      subst h
      obtain ⟨e, he, hp, hs⟩ := ih hlw
      exact ⟨e, List.mem_cons_of_mem _ he, hp, hs⟩
    | none =>
      rw [lastWrite, hlw] at h
      by_cases hp : ev.price = p
      · rw [if_pos hp] at h
        simp only [Option.some.injEq] at h
        exact ⟨ev, List.mem_cons_self _ _, hp, h⟩
      · rw [if_neg hp] at h
        exact absurd h (by simp)

theorem lastWrite_of_mem (evs : List SideEvent) (p : ℚ)
    (hmem : ∃ ev ∈ evs, ev.price = p) :
    ∃ s, lastWrite evs p = some s ∧
      ∃ ev ∈ evs, ev.price = p ∧ ev.size = s := by
  induction evs with
  | nil => simp at hmem
  | cons ev rest ih =>
    by_cases hrest : ∃ e ∈ rest, e.price = p
    · obtain ⟨s, hlw, e, he, hp, hs⟩ := ih hrest
      exact ⟨s, by simp [lastWrite, hlw],
        e, List.mem_cons_of_mem _ he, hp, hs⟩
    · have hev : ev.price = p := by
        rcases hmem with ⟨e, he, hp⟩
        rcases List.mem_cons.mp he with rfl | hm
        · exact hp
        · exact absurd ⟨e, hm, hp⟩ hrest
      have hlwrest : lastWrite rest p = none := by
        cases hlw : lastWrite rest p with
        | none => rfl
        | some s =>
          obtain ⟨e, he, hp, _⟩ := lastWrite_some_mem rest p s hlw
          exact absurd ⟨e, he, hp⟩ hrest
      exact ⟨ev.size, by simp [lastWrite, hlwrest, hev],
        ev, List.mem_cons_self _ _, hev, rfl⟩

/-- Two duplicate-free lists sorted by the same price comparator that
store the same size at every price have the same (price, size)
projection. -/
theorem proj_eq_of_sizeAt_eq (cmp : ℚ → ℚ → Bool)
    (hanti : ∀ x y : ℚ, cmp x y = true → cmp y x = true → x = y)
    (l₁ : List OrderBookEntry) :
    ∀ l₂ : List OrderBookEntry,
    (l₁.map OrderBookEntry.price).Nodup →
    (l₂.map OrderBookEntry.price).Nodup →
    l₁.Pairwise (fun a b => entryLe cmp a b = true) →
    l₂.Pairwise (fun a b => entryLe cmp a b = true) →
    (∀ q, sizeAt l₁ q = sizeAt l₂ q) →
    l₁.map (fun e => (e.price, e.size)) =
      l₂.map (fun e => (e.price, e.size)) := by
  induction l₁ with
  | nil =>
    intro l₂ _ _ _ _ hq
    cases l₂ with
    | nil => rfl
    | cons e₂ r₂ =>
      have h := hq e₂.price
      simp [sizeAt] at h
  | cons e₁ r₁ ih =>
    intro l₂ hnd₁ hnd₂ hs₁ hs₂ hq
    cases l₂ with
    | nil =>
      have h := hq e₁.price
      simp [sizeAt] at h
    | cons e₂ r₂ =>
      have h1 : sizeAt (e₁ :: r₁) e₁.price = some e₁.size := by
        simp [sizeAt]
      have h2 : sizeAt (e₂ :: r₂) e₂.price = some e₂.size := by
        simp [sizeAt]
      have hp : e₁.price = e₂.price := by
        by_contra hne
        have hx : ∃ x ∈ r₂, x.price = e₁.price := by
          have hsome : sizeAt (e₂ :: r₂) e₁.price = some e₁.size := by
            rw [← hq e₁.price]; exact h1
          obtain ⟨x, hx, hxp, _⟩ :=
            sizeAt_some_mem _ _ _ hsome
          rcases List.mem_cons.mp hx with rfl | hm
          · exact absurd hxp.symm hne
          · exact ⟨x, hm, hxp⟩
        have hy : ∃ y ∈ r₁, y.price = e₂.price := by
          have hsome : sizeAt (e₁ :: r₁) e₂.price = some e₂.size := by
            rw [hq e₂.price]; exact h2
          obtain ⟨y, hy, hyp, _⟩ :=
            sizeAt_some_mem _ _ _ hsome
          rcases List.mem_cons.mp hy with rfl | hm
          · exact absurd hyp hne
          · exact ⟨y, hm, hyp⟩
        obtain ⟨x, hxr, hxp⟩ := hx
        obtain ⟨y, hyr, hyp⟩ := hy
        have hle21 : cmp e₂.price e₁.price = true := by
          have := (List.pairwise_cons.mp hs₂).1 x hxr
          simpa [entryLe, hxp] using this
        have hle12 : cmp e₁.price e₂.price = true := by
          have := (List.pairwise_cons.mp hs₁).1 y hyr
          simpa [entryLe, hyp] using this
        exact hne (hanti _ _ hle12 hle21)
      have hsz : e₁.size = e₂.size := by
        have h := hq e₁.price
        rw [h1] at h
        have hpe : e₂.price = e₁.price := hp.symm
        simp only [sizeAt, if_pos hpe, Option.some.injEq] at h
        exact h
      have hnotin₁ : e₁.price ∉ r₁.map OrderBookEntry.price :=
        (List.nodup_cons.mp (by simpa using hnd₁)).1
      have hnotin₂ : e₁.price ∉ r₂.map OrderBookEntry.price := by
        rw [hp]
        exact (List.nodup_cons.mp (by simpa using hnd₂)).1
      have hqtail : ∀ q, sizeAt r₁ q = sizeAt r₂ q := by
        intro q
        by_cases hq1 : q = e₁.price
        · subst hq1
          rw [(sizeAt_eq_none_iff _ _).mpr hnotin₁,
            (sizeAt_eq_none_iff _ _).mpr hnotin₂]
        · have h := hq q
          have hne₁ : ¬ e₁.price = q := fun h => hq1 h.symm
          have hne₂ : ¬ e₂.price = q := fun h => hq1 (hp ▸ h).symm
          simpa [sizeAt, hne₁, hne₂] using h
      have htail := ih r₂ ((List.nodup_cons.mp (by simpa using hnd₁)).2)
        ((List.nodup_cons.mp (by simpa using hnd₂)).2)
        (List.pairwise_cons.mp hs₁).2 (List.pairwise_cons.mp hs₂).2 hqtail
      simp only [List.map_cons, htail, hp, hsz]

/-- Replaying a side-event sequence over its own result is a no-op on
the (price, size) projection, provided the prices in play fit in the
50-level depth cap. -/
theorem side_replay (cmp : ℚ → ℚ → Bool)
    (htrans : ∀ x y z : ℚ, cmp x y = true → cmp y z = true → cmp x z = true)
    (htot : ∀ x y : ℚ, cmp x y || cmp y x)
    (hanti : ∀ x y : ℚ, cmp x y = true → cmp y x = true → x = y)
    (l : List OrderBookEntry) (evs : List SideEvent)
    (hnd : (l.map OrderBookEntry.price).Nodup)
    (hcard : ((l.map OrderBookEntry.price).toFinset ∪
        (evs.map SideEvent.price).toFinset).card ≤ 50) :
    (sideApplyAll cmp (sideApplyAll cmp l evs) evs).map
        (fun e => (e.price, e.size)) =
      (sideApplyAll cmp l evs).map (fun e => (e.price, e.size)) := by
  set P := (l.map OrderBookEntry.price).toFinset ∪
    (evs.map SideEvent.price).toFinset with hP
  have hl : (l.map OrderBookEntry.price).toFinset ⊆ P :=
    Finset.subset_union_left
  have hevs : ∀ ev ∈ evs, ev.price ∈ P := fun ev h =>
    Finset.mem_union_right _
      (List.mem_toFinset.mpr (List.mem_map_of_mem SideEvent.price h))
  have hk1 := sideApplyAll_keys cmp P evs l hl hnd hevs
  have hchar1 := sizeAt_sideApplyAll cmp P hcard evs l hl hnd hevs
  have hchar2 := sizeAt_sideApplyAll cmp P hcard evs
    (sideApplyAll cmp l evs) hk1.2 hk1.1 hevs
  have hk2 := sideApplyAll_keys cmp P evs (sideApplyAll cmp l evs)
    hk1.2 hk1.1 hevs
  have hq : ∀ q, sizeAt (sideApplyAll cmp (sideApplyAll cmp l evs) evs) q =
      sizeAt (sideApplyAll cmp l evs) q := by
    intro q
    rw [hchar2 q]
    cases hlw : lastWrite evs q with
    | none => simp [hlw]
    | some s =>
      rw [hchar1 q, hlw]
  by_cases hex : ∃ ev ∈ evs, 0 < ev.size
  · exact proj_eq_of_sizeAt_eq cmp hanti _ _ hk2.1 hk1.1
      (sideApplyAll_pairwise_of_pos cmp htrans htot evs
        (sideApplyAll cmp l evs) hex)
      (sideApplyAll_pairwise_of_pos cmp htrans htot evs l hex)
      hq
  · push_neg at hex
    have hnp : ∀ ev ∈ evs, ¬ 0 < ev.size := fun ev h => not_lt.mpr (hex ev h)
    have habs : ∀ ev ∈ evs, sizeAt (sideApplyAll cmp l evs) ev.price =
        none := by
      intro ev hev
      rw [hchar1 ev.price]
      obtain ⟨s, hlw, e, he, _, hs⟩ :=
        lastWrite_of_mem evs ev.price ⟨ev, hev, rfl⟩
      rw [hlw]
      simp [hs ▸ hnp e he]
    rw [sideApplyAll_eq_self_of_removes cmp evs _ hnp habs]

/-- The bid comparator on prices (descending): `bidLe = entryLe cmpBid`
definitionally. -/
def cmpBid (x y : ℚ) : Bool := decide (y ≤ x)

/-- The ask comparator on prices (ascending). -/
def cmpAsk (x y : ℚ) : Bool := decide (x ≤ y)

theorem cmpBid_trans (x y z : ℚ) (hxy : cmpBid x y = true)
    (hyz : cmpBid y z = true) : cmpBid x z = true := by
  simp only [cmpBid, decide_eq_true_eq] at *
  exact hyz.trans hxy

theorem cmpBid_total (x y : ℚ) : cmpBid x y || cmpBid y x := by
  simp only [cmpBid, Bool.or_eq_true, decide_eq_true_eq]
  exact le_total y x

theorem cmpBid_anti (x y : ℚ) (hxy : cmpBid x y = true)
    (hyx : cmpBid y x = true) : x = y := by
  simp only [cmpBid, decide_eq_true_eq] at *
  exact le_antisymm hyx hxy

theorem cmpAsk_trans (x y z : ℚ) (hxy : cmpAsk x y = true)
    (hyz : cmpAsk y z = true) : cmpAsk x z = true := by
  simp only [cmpAsk, decide_eq_true_eq] at *
  exact hxy.trans hyz

theorem cmpAsk_total (x y : ℚ) : cmpAsk x y || cmpAsk y x := by
  simp only [cmpAsk, Bool.or_eq_true, decide_eq_true_eq]
  exact le_total x y

theorem cmpAsk_anti (x y : ℚ) (hxy : cmpAsk x y = true)
    (hyx : cmpAsk y x = true) : x = y := by
  simp only [cmpAsk, decide_eq_true_eq] at *
  exact le_antisymm hxy hyx

/-- The side projection of an incremental event. -/
def toSideEvent (ev : IncEvent) : SideEvent := ⟨ev.price, ev.size, ev.now⟩

/-- The BUY events of a sequence, in order. -/
def buyEvents (evs : List IncEvent) : List SideEvent :=
  (evs.filter (fun ev => decide (ev.side = Side.BUY))).map toSideEvent

/-- The SELL events of a sequence, in order. -/
def sellEvents (evs : List IncEvent) : List SideEvent :=
  (evs.filter (fun ev => decide (ev.side = Side.SELL))).map toSideEvent

/-- An event sequence acts independently on the two sides. -/
theorem applyEvents_sides (evs : List IncEvent) (b : OrderBook) :
    (applyEvents b evs).bids = sideApplyAll cmpBid b.bids (buyEvents evs) ∧
    (applyEvents b evs).asks = sideApplyAll cmpAsk b.asks (sellEvents evs)
    := by
  induction evs generalizing b with
  | nil => exact ⟨rfl, rfl⟩
  | cons ev rest ih =>
    have hstep : applyEvents b (ev :: rest) =
        applyEvents (applyIncremental b ev) rest := rfl
    have h := ih (applyIncremental b ev)
    cases hside : ev.side with
    | BUY =>
      have hbids : (applyIncremental b ev).bids =
          sideApply cmpBid b.bids (toSideEvent ev) := by
        simp only [applyIncremental, hside]
        rfl
      have hasks : (applyIncremental b ev).asks = b.asks := by
        simp only [applyIncremental, hside]
      have hbe : buyEvents (ev :: rest) =
          toSideEvent ev :: buyEvents rest := by
        simp [buyEvents, List.filter_cons, hside]
      have hse : sellEvents (ev :: rest) = sellEvents rest := by
        simp [sellEvents, List.filter_cons, hside]
      refine ⟨?_, ?_⟩
      · rw [hstep, h.1, hbids, hbe]
        rfl
      · rw [hstep, h.2, hasks, hse]
    | SELL =>
      have hasks : (applyIncremental b ev).asks =
          sideApply cmpAsk b.asks (toSideEvent ev) := by
        simp only [applyIncremental, hside]
        rfl
      have hbids : (applyIncremental b ev).bids = b.bids := by
        simp only [applyIncremental, hside]
      have hbe : buyEvents (ev :: rest) = buyEvents rest := by
        simp [buyEvents, List.filter_cons, hside]
      have hse : sellEvents (ev :: rest) =
          toSideEvent ev :: sellEvents rest := by
        simp [sellEvents, List.filter_cons, hside]
      refine ⟨?_, ?_⟩
      · rw [hstep, h.1, hbids, hbe]
      · rw [hstep, h.2, hasks, hse]
        rfl

/-- C5 (amended: restricted to runs in which the per-side set of
distinct prices — initial book plus events — fits in the 50-level depth
cap, and to duplicate-free initial books; beyond the cap, truncation
makes replay lose levels, see the counterexample): applying an event
sequence a second time to its own result leaves the per-side
(price, size) level lists unchanged. -/
theorem replay_idempotent_within_depth_cap (b : OrderBook)
    (evs : List IncEvent)
    (hndb : (b.bids.map OrderBookEntry.price).Nodup)
    (hnda : (b.asks.map OrderBookEntry.price).Nodup)
    (hcb : ((b.bids.map OrderBookEntry.price).toFinset ∪
        ((buyEvents evs).map SideEvent.price).toFinset).card ≤ 50)
    (hca : ((b.asks.map OrderBookEntry.price).toFinset ∪
        ((sellEvents evs).map SideEvent.price).toFinset).card ≤ 50) :
    levelsView (applyEvents (applyEvents b evs) evs) =
      levelsView (applyEvents b evs) := by
  have h1 := applyEvents_sides evs b
  have h2 := applyEvents_sides evs (applyEvents b evs)
  have hbids : (applyEvents (applyEvents b evs) evs).bids.map
      (fun e => (e.price, e.size)) =
      (applyEvents b evs).bids.map (fun e => (e.price, e.size)) := by
    rw [h2.1, h1.1]
    exact side_replay cmpBid cmpBid_trans cmpBid_total cmpBid_anti
      b.bids (buyEvents evs) hndb hcb
  have hasks : (applyEvents (applyEvents b evs) evs).asks.map
      (fun e => (e.price, e.size)) =
      (applyEvents b evs).asks.map (fun e => (e.price, e.size)) := by
    rw [h2.2, h1.2]
    exact side_replay cmpAsk cmpAsk_trans cmpAsk_total cmpAsk_anti
      b.asks (sellEvents evs) hnda hca
  simp only [levelsView, hbids, hasks]

/-- Witness for `replay_idempotent_within_depth_cap` on a concrete
small run. -/
theorem replay_idempotent_within_depth_cap_witness :
    levelsView (applyEvents
        (applyEvents ⟨[], [], "tok", 0⟩
          [⟨1, 5, Side.BUY, 0⟩, ⟨2, 7, Side.SELL, 0⟩, ⟨1, 0, Side.BUY, 0⟩])
        [⟨1, 5, Side.BUY, 0⟩, ⟨2, 7, Side.SELL, 0⟩, ⟨1, 0, Side.BUY, 0⟩]) =
      levelsView (applyEvents ⟨[], [], "tok", 0⟩
        [⟨1, 5, Side.BUY, 0⟩, ⟨2, 7, Side.SELL, 0⟩, ⟨1, 0, Side.BUY, 0⟩])
    := by
  exact replay_idempotent_within_depth_cap ⟨[], [], "tok", 0⟩ _
    (by decide) (by decide) (by decide) (by decide)

/-- 50 bid levels at prices 51, 50, …, 2 (descending), size 1. -/
def cexBids : List OrderBookEntry :=
  (List.range 50).map (fun i => ⟨((51 - i : ℕ) : ℚ), 1, 0⟩)

/-- 49 bid levels at prices 50, 49, …, 2 (descending), size 1. -/
def cexBids1 : List OrderBookEntry :=
  (List.range 49).map (fun i => ⟨((50 - i : ℕ) : ℚ), 1, 0⟩)

/-- A full book of 50 bid levels. -/
def cexBook : OrderBook := ⟨cexBids, [], "tok", 0⟩

/-- Insert price 1 (truncated away while the book is full), then remove
price 51. -/
def cexEvs : List IncEvent :=
  [⟨1, 1, Side.BUY, 0⟩, ⟨51, 0, Side.BUY, 0⟩]

/-- C5 counterexample: on a book already holding 50 bid levels, the
insert of a 51st price is dropped by the depth-cap truncation; after a
removal makes room, replaying the same two events keeps the re-inserted
price, so the book after replay differs from the book after a single
application. -/
theorem replay_depth_cap_counterexample :
    levelsView (applyEvents (applyEvents cexBook cexEvs) cexEvs) ≠
      levelsView (applyEvents cexBook cexEvs) := by
  have h_up1 : updateLevels bidLe cexBids 1 1 0 = cexBids := by
    rw [updateLevels_pos bidLe cexBids 1 1 0 (by norm_num),
      upsert_of_not_mem cexBids 1 1 0 (by decide),
      List.mergeSort_of_sorted (by decide)]
    decide
  have h_rm1 : updateLevels bidLe cexBids 51 0 0 = cexBids1 := by
    rw [updateLevels_nonpos bidLe cexBids 51 0 0 (by norm_num)]
    decide
  have h_up2 : updateLevels bidLe cexBids1 1 1 0 =
      cexBids1 ++ [⟨1, 1, 0⟩] := by
    rw [updateLevels_pos bidLe cexBids1 1 1 0 (by norm_num),
      upsert_of_not_mem cexBids1 1 1 0 (by decide),
      List.mergeSort_of_sorted (by decide)]
    exact List.take_of_length_le (by decide)
  have h_rm2 : updateLevels bidLe (cexBids1 ++ [⟨1, 1, 0⟩]) 51 0 0 =
      cexBids1 ++ [⟨1, 1, 0⟩] := by
    rw [updateLevels_nonpos bidLe _ 51 0 0 (by norm_num)]
    exact removeFirst_of_not_mem _ _ (by decide)
  have s1 : applyIncremental cexBook ⟨1, 1, Side.BUY, 0⟩ =
      ⟨cexBids, [], "tok", 0⟩ := by
    show ({ cexBook with
        bids := updateLevels bidLe cexBook.bids 1 1 0,
        timestamp := 0 } : OrderBook) = _
    rw [show cexBook.bids = cexBids from rfl, h_up1]
    rfl
  have s2 : applyIncremental (⟨cexBids, [], "tok", 0⟩ : OrderBook)
      ⟨51, 0, Side.BUY, 0⟩ = ⟨cexBids1, [], "tok", 0⟩ := by
    show ({ (⟨cexBids, [], "tok", 0⟩ : OrderBook) with
        bids := updateLevels bidLe cexBids 51 0 0,
        timestamp := 0 } : OrderBook) = _
    rw [h_rm1]
  have s3 : applyIncremental (⟨cexBids1, [], "tok", 0⟩ : OrderBook)
      ⟨1, 1, Side.BUY, 0⟩ = ⟨cexBids1 ++ [⟨1, 1, 0⟩], [], "tok", 0⟩ := by
    show ({ (⟨cexBids1, [], "tok", 0⟩ : OrderBook) with
        bids := updateLevels bidLe cexBids1 1 1 0,
        timestamp := 0 } : OrderBook) = _
    rw [h_up2]
  have s4 : applyIncremental
      (⟨cexBids1 ++ [⟨1, 1, 0⟩], [], "tok", 0⟩ : OrderBook)
      ⟨51, 0, Side.BUY, 0⟩ =
      ⟨cexBids1 ++ [⟨1, 1, 0⟩], [], "tok", 0⟩ := by
    show ({ (⟨cexBids1 ++ [⟨1, 1, 0⟩], [], "tok", 0⟩ : OrderBook) with
        bids := updateLevels bidLe (cexBids1 ++ [⟨1, 1, 0⟩]) 51 0 0,
        timestamp := 0 } : OrderBook) = _
    rw [h_rm2]
  have hpass1 : applyEvents cexBook cexEvs = ⟨cexBids1, [], "tok", 0⟩ := by
    show applyIncremental (applyIncremental cexBook ⟨1, 1, Side.BUY, 0⟩)
        ⟨51, 0, Side.BUY, 0⟩ = _
    rw [s1, s2]
  have hpass2 : applyEvents (⟨cexBids1, [], "tok", 0⟩ : OrderBook) cexEvs =
      ⟨cexBids1 ++ [⟨1, 1, 0⟩], [], "tok", 0⟩ := by
    show applyIncremental
        (applyIncremental (⟨cexBids1, [], "tok", 0⟩ : OrderBook)
          ⟨1, 1, Side.BUY, 0⟩) ⟨51, 0, Side.BUY, 0⟩ = _
    rw [s3, s4]
  rw [hpass1, hpass2]
  decide

end MonitorFish
